import Mathlib

/-!
Verification development for the terminal text browser
(`src/text_browser.py`).  Strings are modelled as `List Char`.
Python library primitives used by the program (`str.split`, `str.strip`,
`re.sub`, `urllib.parse`) are embedded as executable Lean functions on
character lists; the program's own functions (`clean_paragraph`, `wrap`,
`build_text_pages`, `add_history`, `save_bookmark`,
`try_load_next_part`, `extract_single_page`, the URL normalizer chain)
are translated statement by statement from the source.
-/

namespace TextBrowser

/-- Python whitespace class for ASCII text: the characters matched by
`\s`, `str.split()` and `str.strip()`. -/
def isPySpace (c : Char) : Bool :=
  c = ' ' || c = '\t' || c = '\n' || c = '\r' || c = '\x0b' || c = '\x0c'

/-- First step of `clean_paragraph`: `text.replace("\n", " ")`. -/
def replaceNewlines (s : List Char) : List Char :=
  s.map (fun c => if c = '\n' then ' ' else c)

theorem length_dropWhile_le {α : Type} (p : α → Bool) (l : List α) :
    (l.dropWhile p).length ≤ l.length := by
  induction l with
  | nil => simp [List.dropWhile]
  | cons a l ih =>
    by_cases h : p a
    · simp only [List.dropWhile, h]
      exact Nat.le_succ_of_le ih
    · simp [List.dropWhile, h]

/-- Second step of `clean_paragraph`: `re.sub(r"\s+", " ", text)`,
replacing every maximal run of whitespace by a single space. -/
def collapseWs : List Char → List Char
  | [] => []
  | c :: cs =>
    if isPySpace c then ' ' :: collapseWs (cs.dropWhile isPySpace)
    else c :: collapseWs cs
termination_by l => l.length
decreasing_by
  · exact Nat.lt_succ_of_le (length_dropWhile_le _ _)
  · exact Nat.lt_succ_self _

/-- Model of `str.lstrip()` for the default whitespace argument. -/
def pyStripLeft (s : List Char) : List Char := s.dropWhile isPySpace

/-- Model of `str.rstrip()` for the default whitespace argument. -/
def pyStripRight (s : List Char) : List Char :=
  (s.reverse.dropWhile isPySpace).reverse

/-- Model of `str.strip()` (both ends). -/
def pyStrip (s : List Char) : List Char := pyStripRight (pyStripLeft s)

/-- `clean_paragraph` from the source: replace newlines by spaces,
collapse whitespace runs to single spaces, strip the ends. -/
def clean_paragraph (s : List Char) : List Char :=
  pyStrip (collapseWs (replaceNewlines s))

/-- Model of Python `text.split()`: the maximal whitespace-free words of
the text, in order (empty words never occur). -/
def pySplit : List Char → List (List Char)
  | [] => []
  | c :: cs =>
    if isPySpace c then pySplit cs
    else (c :: cs.takeWhile (fun x => !isPySpace x)) ::
      pySplit (cs.dropWhile (fun x => !isPySpace x))
termination_by l => l.length
decreasing_by
  · exact Nat.lt_succ_self _
  · exact Nat.lt_succ_of_le (length_dropWhile_le _ _)

/-- Join a list of words with single spaces (the inverse direction of
`pySplit` on normalized text). -/
def joinWords : List (List Char) → List Char
  | [] => []
  | [w] => w
  | w :: ws => w ++ ' ' :: joinWords ws

/-- The loop of `wrap`: `ws` are the words still to be placed, `current`
the line being filled, `lines` the finished lines. -/
def wrapAux (width : Nat) : List (List Char) → List Char → List (List Char) →
    List (List Char)
  | [], current, lines => if current ≠ [] then lines ++ [current] else lines
  | w :: ws, current, lines =>
    if current.length + w.length + (if current ≠ [] then 1 else 0) > width then
      wrapAux width ws w (if current ≠ [] then lines ++ [current] else lines)
    else
      wrapAux width ws (if current = [] then w else current ++ ' ' :: w) lines

/-- `wrap` from the source: greedy word-wrap of `text` to `width`
columns. -/
def wrap (text : List Char) (width : Nat) : List (List Char) :=
  wrapAux width (pySplit text) [] []

/-! ### URL parsing (model of `urllib.parse`, CPython 3.11)

ASCII model: the WHATWG control-character stripping, the IPv6 bracket
validation and the UTF-8 multi-byte percent decoding of the library are
not modelled; `urlparse` keeps the path parameters inside `path`
(equivalent to `urlsplit`), which is observationally equivalent for
every use the program makes of the result. -/

/-- The five URL components the program reads. -/
structure UrlParts where
  scheme : List Char
  netloc : List Char
  path : List Char
  query : List Char
  fragment : List Char
deriving DecidableEq, Repr

/-- Characters allowed in a URL scheme (`urllib.parse.scheme_chars`). -/
def schemeChar (c : Char) : Bool :=
  c.isAlpha || c.isDigit || c = '+' || c = '-' || c = '.'

/-- Characters that do not terminate the network-location part. -/
def netlocChar (c : Char) : Bool := !(c = '/' || c = '?' || c = '#')

/-- Split at the first occurrence of `c`: `(before, after)`; when `c`
does not occur the second component is empty (matching how `urlsplit`
leaves query and fragment empty). -/
def splitFirst (c : Char) (l : List Char) : List Char × List Char :=
  (l.takeWhile (fun x => x ≠ c), (l.dropWhile (fun x => x ≠ c)).drop 1)

/-- The scheme step of `urlsplit`: the prefix before the first `:` is
the scheme when it is non-empty, starts with an ASCII letter and
consists of scheme characters; it is lowercased. -/
def splitScheme (u : List Char) : List Char × List Char :=
  let pre := u.takeWhile (fun c => c ≠ ':')
  if pre.length < u.length && decide (0 < pre.length) &&
      (u.headD ' ').isAlpha && pre.all schemeChar then
    (pre.map Char.toLower, u.drop (pre.length + 1))
  else ([], u)

/-- The network-location step of `urlsplit`: after a leading `//`, the
netloc runs to the first `/`, `?` or `#`. -/
def splitNetloc (rest : List Char) : List Char × List Char :=
  if rest.take 2 = ['/', '/'] then
    ((rest.drop 2).takeWhile netlocChar, (rest.drop 2).dropWhile netlocChar)
  else ([], rest)

/-- Model of `urllib.parse.urlparse` (scheme, then `//netloc`, then
fragment, then query; path parameters stay in `path`). -/
def urlparse (u : List Char) : UrlParts :=
  let sr := splitScheme u
  let nr := splitNetloc sr.2
  let fragSplit := splitFirst '#' nr.2
  let querySplit := splitFirst '?' fragSplit.1
  ⟨sr.1, nr.1, querySplit.1, querySplit.2, fragSplit.2⟩

/-- `urllib.parse.uses_netloc`. -/
def usesNetloc : List (List Char) :=
  ["", "ftp", "http", "gopher", "nntp", "telnet", "imap", "wais", "file",
   "mms", "https", "shttp", "snews", "prospero", "rtsp", "rtsps", "rtspu",
   "rsync", "svn", "svn+ssh", "sftp", "nfs", "git", "git+ssh", "ws",
   "wss"].map String.toList

/-- Model of `urllib.parse.urlunparse` (CPython 3.11 `urlunsplit`, the
path parameters having been kept inside `path`). -/
def urlunparse (p : UrlParts) : List Char :=
  let url := p.path
  let url :=
    if p.netloc ≠ [] ∨
        (p.scheme ≠ [] ∧ p.scheme ∈ usesNetloc ∧ url.take 2 ≠ ['/', '/']) then
      let url2 := if url ≠ [] ∧ url.take 1 ≠ ['/'] then '/' :: url else url
      '/' :: '/' :: (p.netloc ++ url2)
    else url
  let url := if p.scheme ≠ [] then p.scheme ++ ':' :: url else url
  let url := if p.query ≠ [] then url ++ '?' :: p.query else url
  if p.fragment ≠ [] then url ++ '#' :: p.fragment else url

/-- Split on every occurrence of `c` (Python `str.split(sep)`: empty
segments are kept). -/
def splitOnChar (c : Char) (l : List Char) : List (List Char) :=
  let seg := l.takeWhile (fun y => y ≠ c)
  if h : seg.length < l.length then
    seg :: splitOnChar c (l.drop (seg.length + 1))
  else [seg]
termination_by l.length
decreasing_by
  simp only [List.length_drop]
  omega

/-- Hexadecimal digit test (`string.hexdigits`). -/
def isHexDigit (c : Char) : Bool :=
  c.isDigit || ('a' ≤ c && c ≤ 'f') || ('A' ≤ c && c ≤ 'F')

/-- Value of a hexadecimal digit. -/
def hexVal (c : Char) : Nat :=
  if c.isDigit then c.toNat - 48
  else if 'a' ≤ c then c.toNat - 87
  else c.toNat - 55

/-- ASCII model of `urllib.parse.unquote`: each `%HH` escape with two
hexadecimal digits becomes the character with code `HH`; anything else
is copied. -/
def unquote : List Char → List Char
  | [] => []
  | '%' :: a :: b :: rest =>
    if isHexDigit a && isHexDigit b then
      Char.ofNat (16 * hexVal a + hexVal b) :: unquote rest
    else '%' :: unquote (a :: b :: rest)
  | c :: rest => c :: unquote rest

/-- `str.replace("+", " ")` as used by `parse_qsl`. -/
def plusToSpace (l : List Char) : List Char :=
  l.map (fun c => if c = '+' then ' ' else c)

/-- Split a query pair at its first `=`; `none` when there is no `=`. -/
def splitOnceEq (l : List Char) : Option (List Char × List Char) :=
  if l.any (fun c => c = '=') then
    some (l.takeWhile (fun c => c ≠ '='),
      (l.dropWhile (fun c => c ≠ '=')).drop 1)
  else none

/-- Model of `urllib.parse.parse_qsl` with the program's default
arguments: blank values and `=`-less fields are dropped. -/
def parse_qsl (qs : List Char) : List (List Char × List Char) :=
  let args := if qs = [] then [] else splitOnChar '&' qs
  args.filterMap (fun nv =>
    if nv = [] then none
    else match splitOnceEq nv with
      | none => none
      | some (n, v) =>
        if v = [] then none
        else some (unquote (plusToSpace n), unquote (plusToSpace v)))

/-- Python substring containment (`needle in haystack` on strings). -/
def containsSub (needle : List Char) : List Char → Bool
  | [] => needle.isEmpty
  | c :: t => needle.isPrefixOf (c :: t) || containsSub needle t

/-- `STRIP_DDG_TRACKING` module constant. -/
def STRIP_DDG_TRACKING : Bool := true

/-- `SAFE_MODE` module constant. -/
def SAFE_MODE : Bool := true

/-- `strip_duckduckgo_tracking` from the source: drop the whole query
string of any URL whose host contains `duckduckgo.com`. -/
def strip_duckduckgo_tracking (url : List Char) : List Char :=
  if !STRIP_DDG_TRACKING then url
  else
    let p := urlparse url
    if !(containsSub "duckduckgo.com".toList p.netloc) then url
    else urlunparse { p with query := [] }

/-- `unwrap_duckduckgo_redirect` from the source: decode the `uddg`
destination parameter of a DuckDuckGo `/l` redirect link. -/
def unwrap_duckduckgo_redirect (url : List Char) : List Char :=
  let url :=
    if "//duckduckgo.com/l/?".toList.isPrefixOf url
    then "https:".toList ++ url else url
  let p := urlparse url
  if containsSub "duckduckgo.com".toList p.netloc ∧
      "/l".toList.isPrefixOf p.path then
    match (parse_qsl p.query).find? (fun nv => nv.1 = "uddg".toList) with
    | some nv => unquote nv.2
    | none => url
  else url

/-- `unwrap_generic_redirect` from the source: unwrap, then strip. -/
def unwrap_generic_redirect (url : List Char) : List Char :=
  strip_duckduckgo_tracking (unwrap_duckduckgo_redirect url)

/-- `is_ad_or_tracker` from the source. -/
def is_ad_or_tracker (url : List Char) : Bool :=
  if !SAFE_MODE then false
  else
    let host := (urlparse url).netloc.map Char.toLower
    (["doubleclick", "adservice", "adsystem", "tracking", "analytics",
      "pixel", "googlesyndication"].map String.toList).any
      (fun b => containsSub b host)

/-! ### Paginator (`build_text_pages`, `chunk_paragraphs`, `paginate`) -/

/-- Fixed-size slicing, the pattern `l[i:i+n] for i in range(0, len(l), n)`
shared by `chunk_paragraphs`, `paginate` and the pre-split loop of
`build_text_pages`.  A step of `0` makes Python `range` raise, so the
`0` case is unreachable in the program; it is mapped to `[]`. -/
def chunksOf {α : Type} : Nat → List α → List (List α)
  | _, [] => []
  | 0, _ :: _ => []
  | n + 1, x :: l => ((x :: l).take (n + 1)) :: chunksOf (n + 1) ((x :: l).drop (n + 1))
termination_by _ l => l.length
decreasing_by
  simp only [List.length_drop, List.length_cons]
  omega

/-- `chunk_paragraphs` from the source. -/
def chunk_paragraphs {α : Type} (paragraphs : List α) (n : Nat) : List (List α) :=
  chunksOf n paragraphs

/-- `paginate` from the source (same slicing generator). -/
def paginate {α : Type} (items : List α) (n : Nat) : List (List α) :=
  chunksOf n items

/-- The pre-split step of `build_text_pages` on one paragraph: keep it
whole when it fits in `maxC` characters, slice it into `maxC`-sized
chunks otherwise. -/
def preSplitPara (maxC : Nat) (para : List Char) : List (List Char) :=
  if para.length ≤ maxC then [para] else chunksOf maxC para

/-- The full pre-split loop of `build_text_pages`. -/
def preSplit (maxC : Nat) (paragraphs : List (List Char)) : List (List Char) :=
  (paragraphs.map (preSplitPara maxC)).flatten

/-- The sentinel page content for an empty document. -/
def noReadableText : List Char := "[No readable text]".toList

/-- `build_text_pages` from the source.  `maxC` is `MAX_CHARS_PER_BLOCK`,
`parasPerPage` is `PARAS_PER_PAGE` and `width` is the terminal column
count (`usable_width = max(10, cols)` is computed inside). -/
def build_text_pages (maxC parasPerPage width : Nat)
    (paragraphs : List (List Char)) : List (List (List Char)) :=
  if paragraphs = [] then [[noReadableText]]
  else
    let processed := preSplit maxC paragraphs
    (chunk_paragraphs processed parasPerPage).map (fun block =>
      let usableWidth := max 10 width
      (block.map (fun para => wrap (clean_paragraph para) usableWidth ++ [[]])).flatten)

/-! ### History and bookmark stores (pure list models of the
load-mutate-save round trips) -/

/-- `add_history` from the source, acting on the loaded history list:
remove any entry with the same URL, prepend the new entry, truncate to
`CHRONOLOGY_LENGTH` (`bound`). -/
def add_history (bound : Nat) (title : Option (List Char)) (url : List Char)
    (hist : List (List Char × List Char)) : List (List Char × List Char) :=
  ((title.getD [], url) :: hist.filter (fun e => e.2 ≠ url)).take bound

/-- A bookmark record `(title, url, blockIndex)`; an absent title is
`none` (Python `None`). -/
abbrev Bookmark := Option (List Char) × List Char × Nat

/-- Python truthiness of an optional string (`None` and `""` are falsy). -/
def pyTruthy (t : Option (List Char)) : Bool :=
  match t with
  | none => false
  | some s => !s.isEmpty

/-- `save_bookmark` from the source, acting on the loaded bookmark list:
replace the first record with the same URL in place (keeping its title
when the new one is falsy), append a fresh record otherwise. -/
def save_bookmark (url : List Char) (blockIndex : Nat)
    (title : Option (List Char)) : List Bookmark → List Bookmark
  | [] => [(title, url, blockIndex)]
  | (t, u, b) :: rest =>
    if u = url then ((if pyTruthy title then title else t), url, blockIndex) :: rest
    else (t, u, b) :: save_bookmark url blockIndex title rest

/-! ### Continuation detector (`try_load_next_part`) -/

/-- The literal `/page/` path marker. -/
def pageTag : List Char := "/page/".toList

/-- Is the first character a decimal digit? -/
def digitHead (l : List Char) : Bool := (l.headD ' ').isDigit

/-- Model of `re.search(r"/page/(\d+)", url)`: the first index where
`/page/` is followed by at least one digit, together with the greedy
digit run (the regex group). -/
def findPageNumFrom : Nat → List Char → Option (Nat × List Char)
  | _, [] => none
  | i, c :: t =>
    if pageTag.isPrefixOf (c :: t) ∧ digitHead ((c :: t).drop 6) then
      some (i, ((c :: t).drop 6).takeWhile Char.isDigit)
    else findPageNumFrom (i + 1) t

/-- Model of `url.rfind("/page/")`: the index of the last occurrence. -/
def rfindTagFrom : Nat → List Char → Option Nat
  | _, [] => none
  | i, c :: t =>
    match rfindTagFrom (i + 1) t with
    | some j => some j
    | none => if pageTag.isPrefixOf (c :: t) then some i else none

/-- Python `int` on a digit string. -/
def digitsToNat (ds : List Char) : Nat :=
  ds.foldl (fun n c => 10 * n + (c.toNat - 48)) 0

/-- Decimal rendering of a natural number (the f-string interpolation). -/
def natToChars (n : Nat) : List Char := Nat.toDigits 10 n

/-- The next-URL computation of `try_load_next_part` (source lines
1274-1283): locate `/page/<N>`, take the prefix before the last
`/page/`, and append `/page/<N+1>`; without a match, strip trailing
slashes and append `/page/2`. -/
def try_next_url (url : List Char) : List Char :=
  match findPageNumFrom 0 url with
  | some (_, ds) =>
    let currentPage := digitsToNat ds
    let base := url.take ((rfindTagFrom 0 url).getD 0)
    base ++ pageTag ++ natToChars (currentPage + 1)
  | none =>
    let base := (url.reverse.dropWhile (fun c => c = '/')).reverse
    base ++ pageTag ++ natToChars 2

/-- The merge step of `try_load_next_part` (source lines 1291-1307),
taking the extraction result of the fetched candidate page as input:
`none` when nothing new was extracted, otherwise the extended paragraph
list plus the refreshed metadata and the new URL. -/
def try_load_next_part (seen : List (List Char)) (new_pars : List (List Char))
    (links : List (List Char × List Char)) (main_image : Option (List Char))
    (title : Option (List Char)) (next_url : List Char) :
    Option (List (List Char) × List (List Char × List Char) ×
      Option (List Char) × Option (List Char) × List Char) :=
  if new_pars = [] then none
  else
    let added := new_pars.filter (fun p => !(seen.contains p))
    if added = [] then none
    else some (seen ++ added, links, main_image, title, next_url)

/-! ### Content extractor (`extract_single_page`)

The HTML tree produced by BeautifulSoup is modelled as `Node`
(the markup parser itself is the external library); `urljoin` is passed
in as a parameter since it is an external collaborator the extractor
only pipes URLs through. -/

/-- A parsed markup node: a text run or an element with attributes and
children. -/
inductive Node where
  | text (s : List Char)
  | elem (tag : List Char) (attrs : List (List Char × List Char))
      (children : List Node)

mutual

/-- All descendant text runs of a node, in document order. -/
def nodeStrings : Node → List (List Char)
  | .text s => [s]
  | .elem _ _ children => nodesStrings children

/-- All descendant text runs of a node list, in document order. -/
def nodesStrings : List Node → List (List Char)
  | [] => []
  | n :: ns => nodeStrings n ++ nodesStrings ns

end

/-- `tag.get_text(" ", strip=True)`: strip every text run, drop the
empty ones, join with single spaces. -/
def get_text_sep (n : Node) : List Char :=
  joinWords (((nodeStrings n).map pyStrip).filter (fun s => s ≠ []))

/-- `tag.get_text(strip=True)`: strip every text run and concatenate. -/
def get_text_strip (n : Node) : List Char :=
  ((nodeStrings n).map pyStrip).flatten

/-- The element names removed before extraction. -/
def removedTags : List (List Char) :=
  (["script", "style", "nav", "footer", "header"].map String.toList)

mutual

/-- `tag.decompose()` pass over one node: drop the whole subtree of any
element whose name is in `removedTags`. -/
def stripRemoved : Node → Option Node
  | .text s => some (.text s)
  | .elem t a ch =>
    if t ∈ removedTags then none else some (.elem t a (stripRemovedList ch))

/-- `decompose` pass over a node list. -/
def stripRemovedList : List Node → List Node
  | [] => []
  | n :: ns =>
    match stripRemoved n with
    | some m => m :: stripRemovedList ns
    | none => stripRemovedList ns

end

/-- The decompose pass applied to the document root (the root itself is
the BeautifulSoup document object, never a removable tag). -/
def decomposeRemoved : Node → Node
  | .text s => .text s
  | .elem t a ch => .elem t a (stripRemovedList ch)

mutual

/-- `find_all` on the descendants of a list of nodes (document order:
an element precedes its own descendants). -/
def findAllList (tags : List (List Char)) : List Node → List Node
  | [] => []
  | n :: ns => findAllNode tags n ++ findAllList tags ns

/-- `find_all` matches within one node, the node itself included. -/
def findAllNode (tags : List (List Char)) : Node → List Node
  | .text _ => []
  | .elem t a ch =>
    (if t ∈ tags then [Node.elem t a ch] else []) ++ findAllList tags ch

end

/-- `tag.find_all(tags)`: matching descendants of `n`, excluding `n`. -/
def find_all (tags : List (List Char)) (n : Node) : List Node :=
  match n with
  | .text _ => []
  | .elem _ _ ch => findAllList tags ch

/-- Attribute lookup (`tag.get(name)`). -/
def getAttr (n : Node) (name : List Char) : Option (List Char) :=
  match n with
  | .text _ => none
  | .elem _ attrs _ => (attrs.find? (fun a => a.1 = name)).map (fun a => a.2)

/-- bs4 `.string`: the single text child, descending through single
child elements. -/
def nodeString : Node → Option (List Char)
  | .text s => some s
  | .elem _ _ [c] => nodeString c
  | .elem _ _ _ => none

/-- Stable descending insertion by the first component (the behaviour
of Python `list.sort(key=lambda x: x[0], reverse=True)`, which is a
stable sort). -/
def insertDescBy {α : Type} (x : Nat × α) : List (Nat × α) → List (Nat × α)
  | [] => [x]
  | y :: ys => if y.1 ≤ x.1 then x :: y :: ys else y :: insertDescBy x ys

/-- Stable descending sort by the first component. -/
def pySortDesc {α : Type} : List (Nat × α) → List (Nat × α)
  | [] => []
  | x :: xs => insertDescBy x (pySortDesc xs)

/-- The main-region choice of `extract_single_page` (source lines
612-617): the head of the stably descending-sorted candidate list, the
document body as fallback, the whole document as last resort. -/
def selectMain {α : Type} (candidates : List (Nat × α)) (body : Option α)
    (whole : α) : α :=
  match pySortDesc candidates with
  | c :: _ => c.2
  | [] => body.getD whole

/-- `fetch_main_image_url` from the source. -/
def fetch_main_image_url (joinUrl : List Char → List Char → List Char)
    (soup : Node) (base : List Char) : Option (List Char) :=
  let fallback :=
    match (find_all ["img".toList] soup).head? with
    | some img =>
      match getAttr img "src".toList with
      | some src => if src ≠ [] then some (joinUrl base src) else none
      | none => none
    | none => none
  match (find_all ["meta".toList] soup).find?
      (fun m => getAttr m "property".toList = some "og:image".toList) with
  | some og =>
    match getAttr og "content".toList with
    | some content =>
      if content ≠ [] then some (joinUrl base content) else fallback
    | none => fallback
  | none => fallback

/-- `extract_title` from the source. -/
def extract_title (soup : Node) : Option (List Char) :=
  match (find_all ["title".toList] soup).head? with
  | some t =>
    match nodeString t with
    | some s => if s ≠ [] then some (clean_paragraph s) else none
    | none => none
  | none => none

/-- The link collection loop shared by both branches of
`extract_single_page`. -/
def collectLinks (joinUrl : List Char → List Char → List Char)
    (base : List Char) (root : Node) : List (List Char × List Char) :=
  (find_all ["a".toList] root).filterMap (fun a =>
    match getAttr a "href".toList with
    | none => none
    | some rawHref =>
      let label := get_text_sep a
      let href := unwrap_generic_redirect (joinUrl base rawHref)
      if is_ad_or_tracker href then none
      else some ((if label ≠ [] then label else href), href))

/-- The normalized extraction result (the 4-tuple the source returns). -/
structure Extraction where
  paragraphs : List (List Char)
  links : List (List Char × List Char)
  mainImage : Option (List Char)
  title : Option (List Char)
deriving DecidableEq

/-- `extract_single_page` from the source, over the parsed markup tree.
`joinUrl` stands for `urllib.parse.urljoin`. -/
def extract_single_page (joinUrl : List Char → List Char → List Char)
    (html : Node) (base : List Char) : Extraction :=
  let soup := decomposeRemoved html
  let preBlocks := find_all ["pre".toList] soup
  if !preBlocks.isEmpty then
    let paragraphs := (preBlocks.map (fun pre =>
      let ps := find_all ["p".toList] pre
      if !ps.isEmpty then
        ps.filterMap (fun p =>
          let clean := clean_paragraph (get_text_sep p)
          if 5 < clean.length then some clean else none)
      else
        let clean := clean_paragraph (get_text_sep pre)
        if 20 < clean.length then [clean] else [])).flatten
    ⟨paragraphs, collectLinks joinUrl base soup,
      fetch_main_image_url joinUrl soup base, extract_title soup⟩
  else
    let candidates := (find_all (["article", "main", "div"].map String.toList)
      soup).map (fun t => ((get_text_strip t).length, t))
    let mainN := selectMain candidates
      ((find_all ["body".toList] soup).head?) soup
    let paragraphs := (find_all (["p", "li"].map String.toList) mainN).filterMap
      (fun p =>
        let clean := clean_paragraph (get_text_sep p)
        if 20 < clean.length then some clean else none)
    ⟨paragraphs, collectLinks joinUrl base mainN,
      fetch_main_image_url joinUrl soup base, extract_title soup⟩

/-! ## Generic list lemmas -/

theorem takeWhile_append_all {α : Type} {p : α → Bool} {w : List α}
    (hw : ∀ x ∈ w, p x) (r : List α) :
    (w ++ r).takeWhile p = w ++ r.takeWhile p := by
  induction w with
  | nil => simp
  | cons a t ih =>
    have ha : p a := hw a (by simp)
    simp only [List.cons_append, List.takeWhile_cons, ha, if_true]
    rw [ih (fun x hx => hw x (by simp [hx]))]

theorem dropWhile_append_all {α : Type} {p : α → Bool} {w : List α}
    (hw : ∀ x ∈ w, p x) (r : List α) :
    (w ++ r).dropWhile p = r.dropWhile p := by
  induction w with
  | nil => simp
  | cons a t ih =>
    have ha : p a := hw a (by simp)
    simp only [List.cons_append, List.dropWhile_cons, ha, if_true]
    exact ih (fun x hx => hw x (by simp [hx]))

theorem takeWhile_eq_self_of_all {α : Type} {p : α → Bool} {l : List α}
    (h : ∀ x ∈ l, p x) : l.takeWhile p = l := by
  have := @takeWhile_append_all α p l h []
  simpa using this

theorem dropWhile_eq_nil_of_all {α : Type} {p : α → Bool} {l : List α}
    (h : ∀ x ∈ l, p x) : l.dropWhile p = [] := by
  have := @dropWhile_append_all α p l h []
  simpa using this

theorem mem_takeWhile_sat {α : Type} {p : α → Bool} {l : List α} {x : α}
    (h : x ∈ l.takeWhile p) : p x := by
  induction l with
  | nil => simp [List.takeWhile] at h
  | cons a t ih =>
    by_cases ha : p a
    · simp only [List.takeWhile_cons, ha, if_true, List.mem_cons] at h
      rcases h with rfl | h
      · exact ha
      · exact ih h
    · simp [List.takeWhile_cons, ha] at h

theorem filter_take_prefix {α : Type} (p : α → Bool) (l : List α) (n : Nat) :
    (l.filter p) = (l.take n).filter p ++ (l.drop n).filter p := by
  rw [← List.filter_append, List.take_append_drop]

/-- In a list whose image under `f` has no duplicates, at most one
element can fail the test `f · ≠ v`. -/
theorem length_le_filter_ne_add_one {α β : Type} [DecidableEq β] (f : α → β)
    (v : β) : ∀ l : List α, (l.map f).Nodup →
    l.length ≤ (l.filter (fun e => f e ≠ v)).length + 1 := by
  intro l
  induction l with
  | nil => simp
  | cons a t ih =>
    intro hn
    simp only [List.map_cons, List.nodup_cons] at hn
    by_cases ha : f a = v
    · have ht : t.filter (fun e => f e ≠ v) = t := by
        apply List.filter_eq_self.mpr
        intro x hx
        have hne : f x ≠ v := by
          intro hxv
          exact hn.1 (by rw [ha, ← hxv]; exact List.mem_map_of_mem f hx)
        simpa using hne
      rw [List.filter_cons_of_neg (by simp [ha]), ht, List.length_cons]
    · rw [List.filter_cons_of_pos (by simp [ha]), List.length_cons,
        List.length_cons]
      have := ih hn.2
      omega

/-! ## C8: continuation merge -/

/-- Claim C8: the continuation merge returns `none` exactly when the
probe extracted no paragraphs or only paragraphs already seen; otherwise
it returns the seen list extended by exactly the unseen extracted
paragraphs in extraction order, together with the refreshed links,
image, title and the new URL. -/
theorem try_load_next_part_eq (seen new_pars : List (List Char))
    (links : List (List Char × List Char)) (img : Option (List Char))
    (title : Option (List Char)) (url : List Char) :
    try_load_next_part seen new_pars links img title url =
      if new_pars = [] then none
      else if new_pars.filter (fun p => ¬(p ∈ seen)) = [] then none
      else some (seen ++ new_pars.filter (fun p => ¬(p ∈ seen)), links, img,
        title, url) := by
  have hfil : new_pars.filter (fun p => !(seen.contains p)) =
      new_pars.filter (fun p => ¬(p ∈ seen)) := by
    apply List.filter_congr
    intro x _
    by_cases hx : x ∈ seen <;> simp [hx]
  simp only [try_load_next_part, hfil]

theorem try_load_next_part_correct (seen new_pars : List (List Char))
    (links : List (List Char × List Char)) (img : Option (List Char))
    (title : Option (List Char)) (url : List Char) :
    (try_load_next_part seen new_pars links img title url = none ↔
      (new_pars = [] ∨ ∀ p ∈ new_pars, p ∈ seen)) ∧
    (∀ r, try_load_next_part seen new_pars links img title url = some r →
      r = (seen ++ new_pars.filter (fun p => ¬(p ∈ seen)), links, img, title,
        url)) := by
  rw [try_load_next_part_eq]
  by_cases h0 : new_pars = []
  · subst h0
    simp
  · by_cases h1 : new_pars.filter (fun p => ¬(p ∈ seen)) = []
    · simp only [h0, if_false, h1, if_true]
      refine ⟨⟨fun _ => Or.inr ?_, fun _ => trivial⟩, by simp⟩
      intro p hp
      by_contra hns
      have hmem : p ∈ new_pars.filter (fun p => ¬(p ∈ seen)) :=
        List.mem_filter.mpr ⟨hp, by simpa using hns⟩
      rw [h1] at hmem
      simp at hmem
    · simp only [h0, if_false, h1]
      constructor
      · constructor
        · intro h
          simp at h
        · rintro (h | hall)
          · exact h.elim
          · exfalso
            apply h1
            apply List.filter_eq_nil_iff.mpr
            intro p hp
            simpa using hall p hp
      · intro r hr
        simpa using hr.symm

/-- Concrete instance of `try_load_next_part_correct`. -/
theorem try_load_next_part_correct_witness :
    (try_load_next_part [['a']] [['a'], ['b']] [] none none ['u'] = none ↔
      ([['a'], ['b']] = ([] : List (List Char)) ∨
        ∀ p ∈ [['a'], ['b']], p ∈ [['a']])) ∧
    (∀ r, try_load_next_part [['a']] [['a'], ['b']] [] none none ['u'] =
        some r →
      r = ([['a']] ++ [['a'], ['b']].filter (fun p => ¬(p ∈ [['a']])), [],
        none, none, ['u'])) :=
  try_load_next_part_correct [['a']] [['a'], ['b']] [] none none ['u']

/-! ## C5: pre-split chunking -/

theorem chunksOf_flatten {α : Type} (m : Nat) (l : List α) :
    (chunksOf (m + 1) l).flatten = l := by
  generalize hk : l.length = k
  induction k using Nat.strong_induction_on generalizing l with
  | _ k ih =>
    cases l with
    | nil => simp [chunksOf]
    | cons x t =>
      rw [chunksOf, List.flatten_cons,
        ih (((x :: t).drop (m + 1)).length) ?_ _ rfl, List.take_append_drop]
      subst hk
      simp only [List.length_drop, List.length_cons]
      omega

theorem chunksOf_length_le {α : Type} (m : Nat) (l : List α) :
    ∀ q ∈ chunksOf (m + 1) l, q.length ≤ m + 1 := by
  generalize hk : l.length = k
  induction k using Nat.strong_induction_on generalizing l with
  | _ k ih =>
    cases l with
    | nil => simp [chunksOf]
    | cons x t =>
      rw [chunksOf]
      intro q hq
      rcases List.mem_cons.mp hq with rfl | hq
      · exact List.length_take_le (m + 1) (x :: t)
      · exact ih (((x :: t).drop (m + 1)).length)
          (by subst hk; simp only [List.length_drop, List.length_cons]; omega)
          _ rfl q hq

theorem chunksOf_nil {α : Type} (n : Nat) : chunksOf n ([] : List α) = [] := by
  cases n <;> simp [chunksOf]

theorem chunksOf_map_length {α : Type} (m : Nat) (l : List α) :
    (chunksOf (m + 1) l).map List.length =
      List.replicate (l.length / (m + 1)) (m + 1) ++
        (if l.length % (m + 1) = 0 then [] else [l.length % (m + 1)]) := by
  generalize hk : l.length = k
  induction k using Nat.strong_induction_on generalizing l with
  | _ k ih =>
    cases l with
    | nil =>
      subst hk
      simp [chunksOf_nil, Nat.zero_div, Nat.zero_mod]
    | cons x t =>
      subst hk
      rw [chunksOf, List.map_cons]
      by_cases hle : (x :: t).length ≤ m + 1
      · have hdrop : (x :: t).drop (m + 1) = [] :=
          List.drop_eq_nil_of_le hle
        have htake : ((x :: t).take (m + 1)).length = (x :: t).length :=
          by rw [List.length_take]; omega
        rw [hdrop, htake, chunksOf_nil, List.map_nil]
        by_cases heq : (x :: t).length = m + 1
        · rw [heq]
          have h1 : (m + 1) / (m + 1) = 1 := Nat.div_self (by omega)
          have h2 : (m + 1) % (m + 1) = 0 := Nat.mod_self (m + 1)
          rw [h1, h2, if_pos rfl]
          simp [List.replicate]
        · have hlt : (x :: t).length < m + 1 := by omega
          have h1 : (x :: t).length / (m + 1) = 0 := Nat.div_eq_of_lt hlt
          have h2 : (x :: t).length % (m + 1) = (x :: t).length :=
            Nat.mod_eq_of_lt hlt
          have h3 : ¬((x :: t).length % (m + 1) = 0) := by
            rw [h2]; simp
          rw [h1, if_neg h3, h2, List.replicate_zero, List.nil_append]
      · have hgt : m + 1 < (x :: t).length := by omega
        have htake : ((x :: t).take (m + 1)).length = m + 1 := by
          rw [List.length_take]; omega
        have hdroplen : ((x :: t).drop (m + 1)).length =
            (x :: t).length - (m + 1) := List.length_drop _ _
        rw [htake, ih (((x :: t).drop (m + 1)).length)
          (by simp only [List.length_drop, List.length_cons]; omega) _ rfl,
          hdroplen]
        have hsum : (x :: t).length = ((x :: t).length - (m + 1)) + (m + 1) :=
          by omega
        rw [hsum, Nat.add_div_right _ (by omega), Nat.add_mod_right]
        simp [List.replicate_succ]

/-- Claim C5: pre-splitting bounds every resulting paragraph by
`maxCharsPerBlock`, loses and reorders no text, and slices an over-long
paragraph into consecutive chunks of exactly the limit with only the
last one shorter; a 4500-character paragraph with limit 2000 gives
chunks of lengths 2000, 2000, 500. -/
theorem preSplit_correct (maxC : Nat) (paras : List (List Char))
    (h : 1 ≤ maxC) :
    (∀ q ∈ preSplit maxC paras, q.length ≤ maxC) ∧
    (preSplit maxC paras).flatten = paras.flatten ∧
    (∀ p : List Char, maxC < p.length →
      (chunksOf maxC p).flatten = p ∧
      (chunksOf maxC p).map List.length =
        List.replicate (p.length / maxC) maxC ++
          (if p.length % maxC = 0 then [] else [p.length % maxC])) ∧
    (∀ c : Char, (chunksOf 2000 (List.replicate 4500 c)).map List.length =
      [2000, 2000, 500]) := by
  obtain ⟨m, rfl⟩ : ∃ m, maxC = m + 1 := ⟨maxC - 1, by omega⟩
  refine ⟨?_, ?_, ?_, ?_⟩
  · intro q hq
    simp only [preSplit, List.mem_flatten, List.mem_map] at hq
    obtain ⟨chunks, ⟨p, _, rfl⟩, hqc⟩ := hq
    unfold preSplitPara at hqc
    by_cases hp : p.length ≤ m + 1
    · simp only [hp, if_true, List.mem_singleton] at hqc
      subst hqc
      exact hp
    · simp only [hp, if_false] at hqc
      exact chunksOf_length_le m p q hqc
  · have hpara : ∀ p : List Char, (preSplitPara (m + 1) p).flatten = p := by
      intro p
      unfold preSplitPara
      by_cases hp : p.length ≤ m + 1
      · simp [hp]
      · simp only [hp, if_false]
        exact chunksOf_flatten m p
    simp only [preSplit]
    induction paras with
    | nil => simp
    | cons p t iht =>
      simp only [List.map_cons, List.flatten_cons, List.flatten_append, iht]
      congr 1
      exact hpara p
  · intro p _
    exact ⟨chunksOf_flatten m p, chunksOf_map_length m p⟩
  · intro c
    have hlen : (List.replicate 4500 c).length = 4500 := List.length_replicate _ _
    have h2000 : (2000 : Nat) = 1999 + 1 := by norm_num
    rw [h2000, chunksOf_map_length 1999 (List.replicate 4500 c), hlen]
    decide

/-- Concrete instance of `preSplit_correct` at limit 2 on a
five-character paragraph. -/
theorem preSplit_correct_witness :
    (1 ≤ 2) ∧
    ((∀ q ∈ preSplit 2 [['a', 'b', 'c', 'd', 'e']], q.length ≤ 2) ∧
    (preSplit 2 [['a', 'b', 'c', 'd', 'e']]).flatten =
      [['a', 'b', 'c', 'd', 'e']].flatten ∧
    (∀ p : List Char, 2 < p.length →
      (chunksOf 2 p).flatten = p ∧
      (chunksOf 2 p).map List.length =
        List.replicate (p.length / 2) 2 ++
          (if p.length % 2 = 0 then [] else [p.length % 2])) ∧
    (∀ c : Char, (chunksOf 2000 (List.replicate 4500 c)).map List.length =
      [2000, 2000, 500])) :=
  ⟨by decide, preSplit_correct 2 [['a', 'b', 'c', 'd', 'e']] (by decide)⟩

/-! ## C6: history bound, dedup and recency order -/

/-- Keep the first entry for every URL, dropping later duplicates
(the most-recent-first reference order for the history store). -/
def dedupByUrl {α : Type} : List (α × List Char) → List (α × List Char)
  | [] => []
  | e :: t => e :: (dedupByUrl t).filter (fun x => x.2 ≠ e.2)

theorem dedupByUrl_nodup {α : Type} (l : List (α × List Char)) :
    ((dedupByUrl l).map Prod.snd).Nodup := by
  induction l with
  | nil => simp [dedupByUrl]
  | cons e t ih =>
    rw [dedupByUrl, List.map_cons, List.nodup_cons]
    constructor
    · intro hmem
      obtain ⟨x, hx, hxe⟩ := List.mem_map.mp hmem
      have := List.of_mem_filter hx
      simp only [ne_eq, decide_eq_true_eq] at this
      exact this hxe
    · exact ((dedupByUrl t).filter_sublist.map Prod.snd).nodup ih

theorem take_filter_take {α : Type} (f : α → List Char) (u : List Char)
    (D : List α) (b : Nat) (hD : (D.map f).Nodup) :
    ((D.take (b + 1)).filter (fun e => f e ≠ u)).take b =
      (D.filter (fun e => f e ≠ u)).take b := by
  have hsplit := filter_take_prefix (fun e => f e ≠ u) D (b + 1)
  rw [hsplit, List.take_append_eq_append_take]
  by_cases hlen : D.length ≤ b + 1
  · have : D.drop (b + 1) = [] := List.drop_eq_nil_of_le hlen
    simp [this]
  · have htl : (D.take (b + 1)).length = b + 1 := by
      rw [List.length_take]; omega
    have hnd : ((D.take (b + 1)).map f).Nodup := by
      have hsub : List.Sublist ((D.take (b + 1)).map f) (D.map f) :=
        List.Sublist.map f (List.take_sublist _ _)
      exact hsub.nodup hD
    have hflen := length_le_filter_ne_add_one f u (D.take (b + 1)) hnd
    rw [htl] at hflen
    have : b ≤ ((D.take (b + 1)).filter (fun e => f e ≠ u)).length := by omega
    rw [Nat.sub_eq_zero_of_le this, List.take_zero, List.append_nil]

/-- One `add_history` step started from a truncated deduplicated state
produces the same result as from the untruncated one. -/
theorem add_history_step (bound : Nat) (title : Option (List Char))
    (url : List Char) (D : List (List Char × List Char))
    (hD : (D.map Prod.snd).Nodup) :
    add_history bound title url (D.take bound) =
      (((title.getD [], url) :: D.filter (fun x => x.2 ≠ url)).take bound) := by
  unfold add_history
  cases bound with
  | zero => simp
  | succ b =>
    rw [List.take_succ_cons, List.take_succ_cons]
    congr 1
    exact take_filter_take Prod.snd url D b hD

/-- Claim C6: after any sequence of history insertions starting from an
empty store, the history has length at most the configured bound, has
no duplicate URLs, and equals the most-recent-first deduplication of
the visit sequence truncated to the bound (so inserting a seen URL
removes the prior occurrence and overflow evicts the oldest entries). -/
theorem add_history_correct (bound : Nat)
    (ops : List (Option (List Char) × List Char)) :
    (ops.foldl (fun h op => add_history bound op.1 op.2 h) []).length ≤
      bound ∧
    ((ops.foldl (fun h op => add_history bound op.1 op.2 h) []).map
      Prod.snd).Nodup ∧
    ops.foldl (fun h op => add_history bound op.1 op.2 h) [] =
      (dedupByUrl ((ops.map (fun op => (op.1.getD [], op.2))).reverse)).take
        bound := by
  have main : ∀ os : List (Option (List Char) × List Char),
      os.foldl (fun h op => add_history bound op.1 op.2 h) [] =
        (dedupByUrl ((os.map (fun op => (op.1.getD [], op.2))).reverse)).take
          bound := by
    intro os
    induction os using List.reverseRecOn with
    | nil => simp [dedupByUrl]
    | append_singleton os o ih =>
      rw [List.foldl_append, List.foldl_cons, List.foldl_nil, ih,
        add_history_step bound o.1 o.2 _
          (dedupByUrl_nodup ((os.map (fun op => (op.1.getD [], op.2))).reverse))]
      rw [List.map_append, List.reverse_append]
      simp [dedupByUrl]
  refine ⟨?_, ?_, main ops⟩
  · rw [main ops]
    exact List.length_take_le _ _
  · rw [main ops]
    have hsub : List.Sublist
        (((dedupByUrl ((ops.map (fun op =>
          (op.1.getD [], op.2))).reverse)).take bound).map Prod.snd)
        ((dedupByUrl ((ops.map (fun op =>
          (op.1.getD [], op.2))).reverse)).map Prod.snd) :=
      List.Sublist.map Prod.snd (List.take_sublist _ _)
    exact hsub.nodup (dedupByUrl_nodup _)

/-- Concrete instance of `add_history_correct`: bound 2, four visits
with one repeated URL. -/
theorem add_history_correct_witness :
    ([(none, ['a']), (some ['t'], ['b']), (none, ['c']),
        (none, ['a'])].foldl
      (fun h op => add_history 2 op.1 op.2 h) []).length ≤ 2 ∧
    (([(none, ['a']), (some ['t'], ['b']), (none, ['c']),
        (none, ['a'])].foldl
      (fun h op => add_history 2 op.1 op.2 h) []).map Prod.snd).Nodup ∧
    [(none, ['a']), (some ['t'], ['b']), (none, ['c']),
        (none, ['a'])].foldl
      (fun h op => add_history 2 op.1 op.2 h) [] =
      (dedupByUrl (([(none, ['a']), (some ['t'], ['b']), (none, ['c']),
        (none, ['a'])].map (fun op => (op.1.getD [], op.2))).reverse)).take
        2 :=
  add_history_correct 2
    [(none, ['a']), (some ['t'], ['b']), (none, ['c']), (none, ['a'])]

/-! ## C7: bookmark upsert -/

theorem save_bookmark_nil (url : List Char) (block : Nat)
    (title : Option (List Char)) :
    save_bookmark url block title [] = [(title, url, block)] := rfl

theorem save_bookmark_cons (url : List Char) (block : Nat)
    (title t0 : Option (List Char)) (u0 : List Char) (b0 : Nat)
    (rest : List Bookmark) :
    save_bookmark url block title ((t0, u0, b0) :: rest) =
      if u0 = url then
        ((if pyTruthy title then title else t0), url, block) :: rest
      else (t0, u0, b0) :: save_bookmark url block title rest := rfl

theorem save_bookmark_mem_url (url : List Char) (block : Nat)
    (title : Option (List Char)) :
    ∀ (bs : List Bookmark) (x : List Char),
      x ∈ (save_bookmark url block title bs).map (fun e => e.2.1) →
      x ∈ bs.map (fun e => e.2.1) ∨ x = url := by
  intro bs
  induction bs with
  | nil =>
    intro x hx
    rw [save_bookmark_nil] at hx
    simp at hx
    exact Or.inr hx
  | cons e t ih =>
    obtain ⟨t0, u0, b0⟩ := e
    intro x hx
    rw [save_bookmark_cons] at hx
    by_cases hu : u0 = url
    · rw [if_pos hu] at hx
      simp only [List.map_cons, List.mem_cons] at hx
      rcases hx with rfl | hx
      · exact Or.inr rfl
      · exact Or.inl (by simp [hx])
    · rw [if_neg hu] at hx
      simp only [List.map_cons, List.mem_cons] at hx
      rcases hx with rfl | hx
      · exact Or.inl (by simp)
      · rcases ih x hx with h | h
        · exact Or.inl (by simp [h])
        · exact Or.inr h

theorem save_bookmark_nodup (url : List Char) (block : Nat)
    (title : Option (List Char)) :
    ∀ bs : List Bookmark, (bs.map (fun e => e.2.1)).Nodup →
      ((save_bookmark url block title bs).map (fun e => e.2.1)).Nodup := by
  intro bs
  induction bs with
  | nil =>
    intro _
    rw [save_bookmark_nil]
    simp
  | cons e t ih =>
    obtain ⟨t0, u0, b0⟩ := e
    intro hn
    simp only [List.map_cons, List.nodup_cons] at hn
    rw [save_bookmark_cons]
    by_cases hu : u0 = url
    · rw [if_pos hu]
      simp only [List.map_cons, List.nodup_cons]
      subst hu
      exact hn
    · rw [if_neg hu]
      simp only [List.map_cons, List.nodup_cons]
      refine ⟨?_, ih hn.2⟩
      intro hmem
      rcases save_bookmark_mem_url url block title t u0 hmem with h | h
      · exact hn.1 h
      · exact hu h

/-- Effect of one `save_bookmark` on the first record found for any
URL. -/
theorem save_bookmark_find (url : List Char) (block : Nat)
    (title : Option (List Char)) (u' : List Char) :
    ∀ bs : List Bookmark,
      (save_bookmark url block title bs).find? (fun e => e.2.1 = u') =
        if u' = url then
          match bs.find? (fun e => e.2.1 = url) with
          | some e => some ((if pyTruthy title then title else e.1), url, block)
          | none => some (title, url, block)
        else bs.find? (fun e => e.2.1 = u') := by
  intro bs
  induction bs with
  | nil =>
    rw [save_bookmark_nil]
    by_cases h : u' = url
    · rw [if_pos h, List.find?_nil,
        List.find?_cons_of_pos _ (by simp [h])]
    · rw [if_neg h, List.find?_nil,
        List.find?_cons_of_neg _ (by simp [Ne.symm h]), List.find?_nil]
  | cons e t ih =>
    obtain ⟨t0, u0, b0⟩ := e
    rw [save_bookmark_cons]
    by_cases hu : u0 = url
    · rw [if_pos hu]
      by_cases h : u' = url
      · rw [if_pos h,
          List.find?_cons_of_pos _ (by simp [h]),
          List.find?_cons_of_pos _ (by simp [hu])]
      · rw [if_neg h,
          List.find?_cons_of_neg _ (by simp [Ne.symm h]),
          List.find?_cons_of_neg _ (by rw [hu]; simp [Ne.symm h])]
    · rw [if_neg hu]
      by_cases h : u' = url
      · rw [if_pos h,
          List.find?_cons_of_neg _ ?hne1,
          List.find?_cons_of_neg _ (by simp [hu]), ih, if_pos h]
        case hne1 =>
          simp only [decide_eq_true_eq]
          exact fun he => hu (he.trans h)
      · by_cases h2 : u0 = u'
        · rw [if_neg h,
            List.find?_cons_of_pos _ (by simp [h2]),
            List.find?_cons_of_pos _ (by simp [h2])]
        · rw [if_neg h,
            List.find?_cons_of_neg _ (by simp [h2]),
            List.find?_cons_of_neg _ (by simp [h2]), ih, if_neg h]

/-- Per-URL effect of a sequence of saves on the found record. -/
def applySaves (cur : Option Bookmark) :
    List (List Char × Nat × Option (List Char)) → Option Bookmark
  | [] => cur
  | op :: t =>
    applySaves (some (match cur with
      | some e => ((if pyTruthy op.2.2 then op.2.2 else e.1), op.1, op.2.1)
      | none => (op.2.2, op.1, op.2.1))) t

theorem foldl_save_find (u : List Char) :
    ∀ (ops : List (List Char × Nat × Option (List Char)))
      (bs : List Bookmark),
      ((ops.foldl (fun bs op => save_bookmark op.1 op.2.1 op.2.2 bs)
        bs).find? (fun e => e.2.1 = u)) =
        applySaves (bs.find? (fun e => e.2.1 = u))
          (ops.filter (fun op => op.1 = u)) := by
  intro ops
  induction ops with
  | nil =>
    intro bs
    simp [applySaves]
  | cons op t ih =>
    intro bs
    rw [List.foldl_cons, ih, save_bookmark_find]
    by_cases hopu : op.1 = u
    · rw [List.filter_cons_of_pos (by simp [hopu])]
      rw [if_pos hopu.symm]
      subst hopu
      cases hfind : List.find? (fun e => decide (e.2.1 = op.1)) bs with
      | none => rfl
      | some e => rfl
    · rw [List.filter_cons_of_neg (by simp [hopu])]
      rw [if_neg (fun h => hopu h.symm)]

theorem getLast?_cons {α : Type} (s : α) :
    ∀ t : List α, (s :: t).getLast? = some (t.getLast?.getD s) := by
  intro t
  induction t generalizing s with
  | nil => simp
  | cons x t ih =>
    rw [List.getLast?_cons_cons, ih x]
    rfl

/-- A fold that keeps the last truthy title equals the last element of
the truthy filter. -/
theorem foldl_title_eq (t : List (List Char × Nat × Option (List Char)))
    (init : Option (List Char)) :
    t.foldl (fun acc op => if pyTruthy op.2.2 then op.2.2 else acc) init =
      (((t.filter (fun op => pyTruthy op.2.2)).getLast?).map
        (fun op => op.2.2)).getD init := by
  induction t generalizing init with
  | nil => simp
  | cons op t ih =>
    rw [List.foldl_cons]
    by_cases hop : pyTruthy op.2.2
    · rw [if_pos hop, List.filter_cons_of_pos (by simp [hop]), ih,
        getLast?_cons]
      cases hl : (t.filter (fun op => pyTruthy op.2.2)).getLast? <;>
        simp [hl]
    · rw [if_neg hop, List.filter_cons_of_neg (by simp [hop]), ih]

theorem foldl_replace_eq {α β : Type} (g : α → β) (t : List α) (init : β) :
    t.foldl (fun _ x => g x) init = (t.getLast?.map g).getD init := by
  induction t generalizing init with
  | nil => simp
  | cons x t ih =>
    rw [List.foldl_cons, ih, getLast?_cons]
    cases hl : t.getLast? <;> simp [hl]

theorem applySaves_some (rest : List (List Char × Nat × Option (List Char))) :
    ∀ e : Bookmark,
      applySaves (some e) rest =
        some (rest.foldl (fun acc op =>
            if pyTruthy op.2.2 then op.2.2 else acc) e.1,
          rest.foldl (fun _ op => op.1) e.2.1,
          rest.foldl (fun _ op => op.2.1) e.2.2) := by
  induction rest with
  | nil =>
    intro e
    simp [applySaves]
  | cons op t ih =>
    intro e
    rw [applySaves, ih]
    rfl

/-- Claim C7: after any sequence of bookmark saves from an empty store,
URLs are unique; for a URL never saved there is no record; for a saved
URL the single record carries that URL, the block index of its most
recent save, and the most recent truthy title (the first save's title
when no truthy title was ever given). -/
theorem save_bookmark_correct
    (ops : List (List Char × Nat × Option (List Char))) :
    (((ops.foldl (fun bs op => save_bookmark op.1 op.2.1 op.2.2 bs)
      []).map (fun e => e.2.1)).Nodup) ∧
    (∀ u, ops.filter (fun op => op.1 = u) = [] →
      (ops.foldl (fun bs op => save_bookmark op.1 op.2.1 op.2.2 bs)
        []).find? (fun e => e.2.1 = u) = none) ∧
    (∀ u s rest, ops.filter (fun op => op.1 = u) = s :: rest →
      (ops.foldl (fun bs op => save_bookmark op.1 op.2.1 op.2.2 bs)
        []).find? (fun e => e.2.1 = u) =
        some (((((s :: rest).filter (fun op => pyTruthy op.2.2)).getLast?).map
            (fun op => op.2.2)).getD s.2.2,
          u,
          (((s :: rest).getLast?).getD s).2.1)) := by
  refine ⟨?_, ?_, ?_⟩
  · have : ∀ (os : List (List Char × Nat × Option (List Char)))
        (bs : List Bookmark), (bs.map (fun e => e.2.1)).Nodup →
        ((os.foldl (fun bs op => save_bookmark op.1 op.2.1 op.2.2 bs)
          bs).map (fun e => e.2.1)).Nodup := by
      intro os
      induction os with
      | nil => intro bs h; exact h
      | cons op t ih =>
        intro bs h
        rw [List.foldl_cons]
        exact ih _ (save_bookmark_nodup op.1 op.2.1 op.2.2 bs h)
    exact this ops [] (by simp)
  · intro u hu
    rw [foldl_save_find, hu]
    simp [applySaves]
  · intro u s rest hfil
    rw [foldl_save_find, hfil]
    simp only [List.find?_nil, applySaves, applySaves_some]
    have hs : s.1 = u := by
      have : s ∈ ops.filter (fun op => op.1 = u) := by
        rw [hfil]; simp
      have := List.of_mem_filter this
      simpa using this
    have hrest : ∀ op ∈ rest, op.1 = u := by
      intro op hop
      have : op ∈ ops.filter (fun op => op.1 = u) := by
        rw [hfil]; simp [hop]
      have := List.of_mem_filter this
      simpa using this
    have hurl : rest.foldl (fun _ op => op.1) s.1 = u := by
      rw [foldl_replace_eq, hs]
      cases hl : rest.getLast? with
      | none => simp
      | some x =>
        have hmem : x ∈ rest.getLast? := by simp [hl, Option.mem_def]
        obtain ⟨hne, hEq⟩ := List.mem_getLast?_eq_getLast hmem
        have hx : x ∈ rest := by rw [hEq]; exact List.getLast_mem hne
        simp [hrest x hx]
    have htitle := foldl_title_eq rest s.2.2
    have hblock := foldl_replace_eq (fun op => op.2.1) rest s.2.1
    rw [hurl, htitle, hblock]
    congr 1
    have hfiltercons : (s :: rest).filter (fun op => pyTruthy op.2.2) =
        if pyTruthy s.2.2 then
          s :: rest.filter (fun op => pyTruthy op.2.2)
        else rest.filter (fun op => pyTruthy op.2.2) := by
      rw [List.filter_cons]
    by_cases hts : pyTruthy s.2.2
    · rw [hfiltercons, if_pos hts, getLast?_cons, getLast?_cons]
      cases hl : (rest.filter (fun op => pyTruthy op.2.2)).getLast? with
      | none =>
        simp only [Option.getD_none, Option.map_some, Option.getD_some]
        cases hr : rest.getLast? with
        | none => simp
        | some x => simp
      | some x => simp
    · rw [hfiltercons, if_neg hts, getLast?_cons]
      cases hr : rest.getLast? with
      | none => simp
      | some x => simp

/-- Concrete instance of `save_bookmark_correct`: three saves, two to
the same URL (the second with an absent title). -/
theorem save_bookmark_correct_witness :
    ((([(['u'], 1, some ['t']), (['v'], 2, none),
        (['u'], 7, none)].foldl
      (fun bs op => save_bookmark op.1 op.2.1 op.2.2 bs)
      []).map (fun e => e.2.1)).Nodup) ∧
    (∀ u, [(['u'], 1, some ['t']), (['v'], 2, none),
        (['u'], 7, none)].filter (fun op => op.1 = u) = [] →
      ([(['u'], 1, some ['t']), (['v'], 2, none),
        (['u'], 7, none)].foldl
        (fun bs op => save_bookmark op.1 op.2.1 op.2.2 bs)
        []).find? (fun e => e.2.1 = u) = none) ∧
    (∀ u s rest, [(['u'], 1, some ['t']), (['v'], 2, none),
        (['u'], 7, none)].filter (fun op => op.1 = u) = s :: rest →
      ([(['u'], 1, some ['t']), (['v'], 2, none),
        (['u'], 7, none)].foldl
        (fun bs op => save_bookmark op.1 op.2.1 op.2.2 bs)
        []).find? (fun e => e.2.1 = u) =
        some (((((s :: rest).filter (fun op => pyTruthy op.2.2)).getLast?).map
            (fun op => op.2.2)).getD s.2.2,
          u,
          (((s :: rest).getLast?).getD s).2.1)) :=
  save_bookmark_correct
    [(['u'], 1, some ['t']), (['v'], 2, none), (['u'], 7, none)]

/-! ## C2: main-content selection -/

theorem insertDescBy_nil {α : Type} (x : Nat × α) : insertDescBy x [] = [x] :=
  rfl

theorem insertDescBy_cons {α : Type} (x y : Nat × α) (ys : List (Nat × α)) :
    insertDescBy x (y :: ys) =
      if y.1 ≤ x.1 then x :: y :: ys else y :: insertDescBy x ys := rfl

/-- The head of the stable descending sort is the first element
attaining the maximal key. -/
theorem pySortDesc_head {α : Type} :
    ∀ cs : List (Nat × α), cs ≠ [] →
      ∃ i, ∃ hi : i < cs.length,
        (pySortDesc cs).head? = some (cs.get ⟨i, hi⟩) ∧
        (∀ j, ∀ hj : j < cs.length,
          (cs.get ⟨j, hj⟩).1 ≤ (cs.get ⟨i, hi⟩).1) ∧
        (∀ j, j < i → ∀ hj : j < cs.length,
          (cs.get ⟨j, hj⟩).1 < (cs.get ⟨i, hi⟩).1) := by
  intro cs
  induction cs with
  | nil => intro h; exact absurd rfl h
  | cons x cs ih =>
    intro _
    cases cs with
    | nil =>
      refine ⟨0, by simp, ?_, ?_, ?_⟩
      · simp [pySortDesc, insertDescBy_nil]
      · intro j hj
        have : j = 0 := by simpa using hj
        subst this
        exact le_refl _
      · intro j hj
        omega
    | cons y cs2 =>
      obtain ⟨i, hi, hhead, hmax, hfirst⟩ := ih (by simp)
      obtain ⟨S, hS⟩ : ∃ S, pySortDesc (y :: cs2) =
          (y :: cs2).get ⟨i, hi⟩ :: S := by
        cases hP : pySortDesc (y :: cs2) with
        | nil =>
          rw [hP] at hhead
          simp at hhead
        | cons a S =>
          rw [hP] at hhead
          simp only [List.head?_cons, Option.some.injEq] at hhead
          exact ⟨S, by rw [hhead]⟩
      have hsort : pySortDesc (x :: y :: cs2) =
          insertDescBy x (pySortDesc (y :: cs2)) := rfl
      by_cases hcmp : ((y :: cs2).get ⟨i, hi⟩).1 ≤ x.1
      · refine ⟨0, by simp, ?_, ?_, ?_⟩
        · rw [hsort, hS, insertDescBy_cons, if_pos hcmp]
          simp
        · intro j hj
          cases j with
          | zero => exact le_refl _
          | succ j2 =>
            have hj2 : j2 < (y :: cs2).length := by
              simpa using hj
            have : ((x :: y :: cs2).get ⟨j2 + 1, hj⟩) =
                ((y :: cs2).get ⟨j2, hj2⟩) := rfl
            rw [this]
            exact le_trans (hmax j2 hj2) hcmp
        · intro j hj
          omega
      · refine ⟨i + 1, by simpa using hi, ?_, ?_, ?_⟩
        · rw [hsort, hS, insertDescBy_cons, if_neg hcmp]
          rfl
        · intro j hj
          cases j with
          | zero =>
            exact le_of_lt (by simpa using Nat.lt_of_not_le hcmp)
          | succ j2 =>
            have hj2 : j2 < (y :: cs2).length := by simpa using hj
            exact hmax j2 hj2
        · intro j hjlt hj
          cases j with
          | zero => exact Nat.lt_of_not_le hcmp
          | succ j2 =>
            have hj2 : j2 < (y :: cs2).length := by simpa using hj
            exact hfirst j2 (by omega) hj2

/-- Claim C2: with at least one article/main/div candidate, the
selected main region is the first candidate of maximal total visible
text length (in document order); with no candidate the body is used,
and the whole document when there is no body. -/
theorem selectMain_correct {α : Type} (cs : List (Nat × α)) (body : Option α)
    (whole : α) :
    (cs ≠ [] → ∃ i, ∃ hi : i < cs.length,
      selectMain cs body whole = (cs.get ⟨i, hi⟩).2 ∧
      (∀ j, ∀ hj : j < cs.length,
        (cs.get ⟨j, hj⟩).1 ≤ (cs.get ⟨i, hi⟩).1) ∧
      (∀ j, j < i → ∀ hj : j < cs.length,
        (cs.get ⟨j, hj⟩).1 < (cs.get ⟨i, hi⟩).1)) ∧
    (selectMain ([] : List (Nat × α)) body whole = body.getD whole) := by
  constructor
  · intro h
    obtain ⟨i, hi, hhead, hmax, hfirst⟩ := pySortDesc_head cs h
    refine ⟨i, hi, ?_, hmax, hfirst⟩
    unfold selectMain
    cases hP : pySortDesc cs with
    | nil =>
      rw [hP] at hhead
      simp at hhead
    | cons a S =>
      rw [hP] at hhead
      simp only [List.head?_cons, Option.some.injEq] at hhead
      rw [hhead]
  · rfl

/-- Concrete instance of `selectMain_correct` on the specification
example (candidate text lengths 50, 300, 120): the length-300 candidate
is selected. -/
theorem selectMain_correct_witness :
    (([(50, 0), (300, 1), (120, 2)] : List (Nat × Nat)) ≠ [] →
      ∃ i, ∃ hi : i < ([(50, 0), (300, 1), (120, 2)] :
          List (Nat × Nat)).length,
        selectMain [(50, 0), (300, 1), (120, 2)] none 99 =
          (([(50, 0), (300, 1), (120, 2)] :
            List (Nat × Nat)).get ⟨i, hi⟩).2 ∧
        (∀ j, ∀ hj : j < ([(50, 0), (300, 1), (120, 2)] :
            List (Nat × Nat)).length,
          (([(50, 0), (300, 1), (120, 2)] :
            List (Nat × Nat)).get ⟨j, hj⟩).1 ≤
          (([(50, 0), (300, 1), (120, 2)] :
            List (Nat × Nat)).get ⟨i, hi⟩).1) ∧
        (∀ j, j < i → ∀ hj : j < ([(50, 0), (300, 1), (120, 2)] :
            List (Nat × Nat)).length,
          (([(50, 0), (300, 1), (120, 2)] :
            List (Nat × Nat)).get ⟨j, hj⟩).1 <
          (([(50, 0), (300, 1), (120, 2)] :
            List (Nat × Nat)).get ⟨i, hi⟩).1)) ∧
    (selectMain ([] : List (Nat × Nat)) none 99 = 99) ∧
    selectMain [(50, 0), (300, 1), (120, 2)] none 99 = 1 :=
  ⟨(selectMain_correct [(50, 0), (300, 1), (120, 2)] none 99).1,
    (selectMain_correct ([] : List (Nat × Nat)) none 99).2, by decide⟩

/-! ## Word-level lemmas for the wrapper (C10, C1) -/

theorem joinWords_cons_of_ne (w : List Char) {ws : List (List Char)}
    (h : ws ≠ []) : joinWords (w :: ws) = w ++ ' ' :: joinWords ws := by
  cases ws with
  | nil => exact absurd rfl h
  | cons a t => rfl

/-- Merging two words into one line does not change the space-joined
reading. -/
theorem joinWords_merge (lines : List (List Char)) (ws : List (List Char))
    (cur w : List Char) :
    joinWords (lines ++ (cur ++ ' ' :: w) :: ws) =
      joinWords (lines ++ cur :: w :: ws) := by
  induction lines with
  | nil =>
    cases ws with
    | nil =>
      simp only [List.nil_append]
      rw [joinWords_cons_of_ne cur (by simp)]
      rfl
    | cons a t =>
      simp only [List.nil_append]
      rw [joinWords_cons_of_ne _ (by simp),
        joinWords_cons_of_ne cur (by simp),
        joinWords_cons_of_ne w (by simp)]
      simp
  | cons l lines2 ih =>
    simp only [List.cons_append]
    rw [joinWords_cons_of_ne l (by simp),
      joinWords_cons_of_ne l (by simp), ih]

theorem wrapAux_nil_eq (width : Nat) (cur : List Char)
    (lines : List (List Char)) :
    wrapAux width [] cur lines =
      if cur ≠ [] then lines ++ [cur] else lines := rfl

theorem wrapAux_cons_eq (width : Nat) (w : List Char)
    (ws : List (List Char)) (cur : List Char) (lines : List (List Char)) :
    wrapAux width (w :: ws) cur lines =
      if cur.length + w.length + (if cur ≠ [] then 1 else 0) > width then
        wrapAux width ws w (if cur ≠ [] then lines ++ [cur] else lines)
      else
        wrapAux width ws (if cur = [] then w else cur ++ ' ' :: w)
          lines := rfl

/-- The space-joined reading of the wrapper loop output: all the words
come back, in order (`ws` must be real words, i.e. non-empty). -/
theorem wrapAux_joinWords (width : Nat) :
    ∀ (ws : List (List Char)) (cur : List Char) (lines : List (List Char)),
      (∀ w ∈ ws, w ≠ []) →
      joinWords (wrapAux width ws cur lines) =
        joinWords (lines ++ (if cur = [] then [] else [cur]) ++ ws) := by
  intro ws
  induction ws with
  | nil =>
    intro cur lines _
    by_cases hcur : cur = []
    · subst hcur
      simp [wrapAux_nil_eq]
    · simp [wrapAux_nil_eq, hcur]
  | cons w ws ih =>
    intro cur lines hw
    have hwne : w ≠ [] := hw w (by simp)
    have hws : ∀ x ∈ ws, x ≠ [] := fun x hx => hw x (by simp [hx])
    rw [wrapAux_cons_eq]
    by_cases hover : cur.length + w.length +
        (if cur ≠ [] then 1 else 0) > width
    · rw [if_pos hover, ih w _ hws, if_neg hwne]
      by_cases hcur : cur = []
      · subst hcur
        simp
      · rw [if_neg hcur, if_pos hcur]
        congr 1
        simp
    · rw [if_neg hover, ih _ _ hws]
      by_cases hcur : cur = []
      · subst hcur
        rw [if_pos rfl, if_pos rfl, if_neg hwne]
        congr 1
        simp
      · rw [if_neg hcur, if_neg hcur,
          if_neg (by simp : ¬(cur ++ ' ' :: w = []))]
        have := joinWords_merge lines ws cur w
        rw [show lines ++ [cur ++ ' ' :: w] ++ ws =
            lines ++ (cur ++ ' ' :: w) :: ws by simp, this]
        congr 1
        simp

/-- Every word produced by `pySplit` is non-empty and contains no
whitespace. -/
theorem pySplit_words (s : List Char) :
    ∀ w ∈ pySplit s, w ≠ [] ∧ ∀ c ∈ w, isPySpace c = false := by
  generalize hk : s.length = k
  induction k using Nat.strong_induction_on generalizing s with
  | _ k ih =>
    cases s with
    | nil =>
      rw [pySplit]
      intro w hw
      simp at hw
    | cons c cs =>
      subst hk
      rw [pySplit]
      by_cases hc : isPySpace c
      · rw [if_pos hc]
        exact ih cs.length (by simp) cs rfl
      · rw [if_neg hc]
        intro w hw
        rcases List.mem_cons.mp hw with rfl | hw
        · refine ⟨by simp, ?_⟩
          intro x hx
          rcases List.mem_cons.mp hx with rfl | hx
          · simpa using hc
          · have := mem_takeWhile_sat hx
            simpa using this
        · exact ih (cs.dropWhile (fun x => !isPySpace x)).length
            (Nat.lt_succ_of_le (length_dropWhile_le _ _)) _ rfl w hw

theorem wrapAux_ne_nil (width : Nat) :
    ∀ (ws : List (List Char)) (cur : List Char) (lines : List (List Char)),
      (∀ l ∈ lines, l ≠ []) → (∀ w ∈ ws, w ≠ []) →
      ∀ l ∈ wrapAux width ws cur lines, l ≠ [] := by
  intro ws
  induction ws with
  | nil =>
    intro cur lines hl _
    rw [wrapAux_nil_eq]
    by_cases hcur : cur = []
    · rw [if_neg (by simp [hcur])]
      exact hl
    · rw [if_pos (by simp [hcur])]
      intro l hmem
      rcases List.mem_append.mp hmem with h | h
      · exact hl l h
      · rw [List.mem_singleton.mp h]
        exact hcur
  | cons w ws ih =>
    intro cur lines hl hw
    have hwne : w ≠ [] := hw w (by simp)
    have hws : ∀ x ∈ ws, x ≠ [] := fun x hx => hw x (by simp [hx])
    rw [wrapAux_cons_eq]
    by_cases hover : cur.length + w.length +
        (if cur ≠ [] then 1 else 0) > width
    · rw [if_pos hover]
      apply ih w _ _ hws
      by_cases hcur : cur = []
      · rw [if_neg (by simp [hcur])]
        exact hl
      · rw [if_pos (by simp [hcur])]
        intro l hmem
        rcases List.mem_append.mp hmem with h | h
        · exact hl l h
        · rw [List.mem_singleton.mp h]
          exact hcur
    · rw [if_neg hover]
      apply ih _ _ hl hws

theorem wrapAux_length_le (width : Nat) :
    ∀ (ws : List (List Char)) (cur : List Char) (lines : List (List Char)),
      (∀ l ∈ lines, l.length ≤ width) → cur.length ≤ width →
      (∀ w ∈ ws, w.length ≤ width) →
      ∀ l ∈ wrapAux width ws cur lines, l.length ≤ width := by
  intro ws
  induction ws with
  | nil =>
    intro cur lines hl hcur _
    rw [wrapAux_nil_eq]
    by_cases hc : cur = []
    · rw [if_neg (by simp [hc])]
      exact hl
    · rw [if_pos (by simp [hc])]
      intro l hmem
      rcases List.mem_append.mp hmem with h | h
      · exact hl l h
      · rw [List.mem_singleton.mp h]
        exact hcur
  | cons w ws ih =>
    intro cur lines hl hcur hw
    have hwle : w.length ≤ width := hw w (by simp)
    have hws : ∀ x ∈ ws, x.length ≤ width := fun x hx => hw x (by simp [hx])
    rw [wrapAux_cons_eq]
    by_cases hover : cur.length + w.length +
        (if cur ≠ [] then 1 else 0) > width
    · rw [if_pos hover]
      apply ih w _ _ hwle hws
      by_cases hc : cur = []
      · rw [if_neg (by simp [hc])]
        exact hl
      · rw [if_pos (by simp [hc])]
        intro l hmem
        rcases List.mem_append.mp hmem with h | h
        · exact hl l h
        · rw [List.mem_singleton.mp h]
          exact hcur
    · rw [if_neg hover]
      apply ih _ _ hl _ hws
      by_cases hc : cur = []
      · rw [if_pos hc]
        exact hwle
      · rw [if_neg hc]
        rw [if_pos (by simp [hc] : cur ≠ [])] at hover
        simp only [List.length_append, List.length_cons]
        omega

/-- Claim C10: for a positive width, every wrapped line is non-empty;
if every whitespace-separated word of the input fits in the width, every
wrapped line fits in the width; and the space-joined reading of the
wrapped lines is exactly the space-joined word sequence of the input
(so an over-long word is carried whole, never truncated or dropped). -/
theorem wrap_safe (t : List Char) (width : Nat) (h : 1 ≤ width) :
    (∀ line ∈ wrap t width, line ≠ []) ∧
    ((∀ w ∈ pySplit t, w.length ≤ width) →
      ∀ line ∈ wrap t width, line.length ≤ width) ∧
    joinWords (wrap t width) = joinWords (pySplit t) := by
  refine ⟨?_, ?_, ?_⟩
  · apply wrapAux_ne_nil width (pySplit t) [] [] (by simp)
    intro w hw
    exact (pySplit_words t w hw).1
  · intro hbound
    apply wrapAux_length_le width (pySplit t) [] [] (by simp) (by simp)
      hbound
  · rw [show wrap t width = wrapAux width (pySplit t) [] [] from rfl,
      wrapAux_joinWords width (pySplit t) [] []
        (fun w hw => (pySplit_words t w hw).1)]
    simp

/-- Concrete instance of `wrap_safe` at width 5 on a three-word text
whose words all fit. -/
theorem wrap_safe_witness :
    (1 ≤ 5) ∧
    ((∀ line ∈ wrap "no pe ok".toList 5, line ≠ []) ∧
    ((∀ w ∈ pySplit "no pe ok".toList, w.length ≤ 5) →
      ∀ line ∈ wrap "no pe ok".toList 5, line.length ≤ 5) ∧
    joinWords (wrap "no pe ok".toList 5) =
      joinWords (pySplit "no pe ok".toList)) :=
  ⟨by decide, wrap_safe "no pe ok".toList 5 (by decide)⟩

/-! ## Normalization lemmas: `clean_paragraph` as a word join (C1) -/

theorem collapseWs_nil : collapseWs [] = [] := by rw [collapseWs]

theorem pySplit_nil : pySplit [] = [] := by rw [pySplit]

theorem pySplit_dropWhile_space (l : List Char) :
    pySplit (l.dropWhile isPySpace) = pySplit l := by
  induction l with
  | nil => rfl
  | cons c cs ih =>
    rw [List.dropWhile_cons]
    by_cases hc : isPySpace c
    · rw [if_pos hc, ih, pySplit, if_pos hc]
    · rw [if_neg hc]

theorem collapseWs_nonspace_prefix :
    ∀ (w r : List Char), (∀ x ∈ w, isPySpace x = false) →
      collapseWs (w ++ r) = w ++ collapseWs r := by
  intro w
  induction w with
  | nil =>
    intro r _
    simp
  | cons a w2 ih =>
    intro r hw
    rw [List.cons_append, collapseWs, if_neg (by simp [hw a (by simp)]),
      ih r (fun x hx => hw x (by simp [hx]))]
    rfl

theorem dropWhile_eq_self_of_all_neg {p : Char → Bool} {l : List Char}
    (h : ∀ x ∈ l, p x = false) : l.dropWhile p = l := by
  cases l with
  | nil => rfl
  | cons c cs =>
    rw [List.dropWhile_cons, if_neg (by simp [h c (by simp)])]

theorem pyStrip_of_all_nonspace {l : List Char}
    (h : ∀ x ∈ l, isPySpace x = false) : pyStrip l = l := by
  unfold pyStrip pyStripLeft pyStripRight
  rw [dropWhile_eq_self_of_all_neg h,
    dropWhile_eq_self_of_all_neg (fun x hx => h x (List.mem_reverse.mp hx)),
    List.reverse_reverse]

theorem pyStripRight_append (a b : List Char) :
    pyStripRight (a ++ b) =
      if pyStripRight b = [] then pyStripRight a else a ++ pyStripRight b := by
  unfold pyStripRight
  rw [List.reverse_append, List.dropWhile_append]
  by_cases hb : (b.reverse.dropWhile isPySpace).isEmpty
  · rw [if_pos hb, if_pos]
    rw [List.isEmpty_iff] at hb
    rw [hb]
    rfl
  · rw [if_neg hb, if_neg]
    · rw [List.reverse_append, List.reverse_reverse]
    · rw [List.isEmpty_iff] at hb
      intro hcon
      apply hb
      have := congrArg List.reverse hcon
      rw [List.reverse_reverse] at this
      simp [this]

theorem p_head_dropWhile {p : Char → Bool} :
    ∀ (l : List Char) (c : Char) (cs : List Char),
      l.dropWhile p = c :: cs → p c = false := by
  intro l
  induction l with
  | nil =>
    intro c cs h
    simp at h
  | cons a t ih =>
    intro c cs h
    rw [List.dropWhile_cons] at h
    by_cases ha : p a
    · rw [if_pos ha] at h
      exact ih c cs h
    · rw [if_neg ha] at h
      cases h
      simpa using ha

theorem joinWords_ne_nil {w : List Char} {ws : List (List Char)}
    (hw : w ≠ []) : joinWords (w :: ws) ≠ [] := by
  cases ws with
  | nil => exact hw
  | cons a t =>
    rw [joinWords_cons_of_ne w (by simp)]
    simp

/-- After a collapse the text strips to exactly its space-joined word
sequence. -/
theorem pyStrip_collapseWs (l : List Char) :
    pyStrip (collapseWs l) = joinWords (pySplit l) := by
  generalize hk : l.length = k
  induction k using Nat.strong_induction_on generalizing l with
  | _ k ih =>
    cases l with
    | nil =>
      subst hk
      rw [collapseWs_nil, pySplit_nil]
      rfl
    | cons c cs =>
      subst hk
      by_cases hc : isPySpace c
      · rw [collapseWs, if_pos hc]
        have hXshape : pyStripLeft (' ' :: collapseWs
            (cs.dropWhile isPySpace)) =
            pyStripLeft (collapseWs (cs.dropWhile isPySpace)) := by
          unfold pyStripLeft
          rw [List.dropWhile_cons, if_pos (by decide)]
        have hXfix : pyStripLeft (collapseWs (cs.dropWhile isPySpace)) =
            collapseWs (cs.dropWhile isPySpace) := by
          cases hC : cs.dropWhile isPySpace with
          | nil => rw [collapseWs_nil]; rfl
          | cons d ds =>
            have hd : isPySpace d = false := p_head_dropWhile cs d ds hC
            rw [collapseWs, if_neg (by simp [hd])]
            unfold pyStripLeft
            rw [List.dropWhile_cons, if_neg (by simp [hd])]
        have hIH := ih (cs.dropWhile isPySpace).length
          (Nat.lt_succ_of_le (length_dropWhile_le _ _))
          (cs.dropWhile isPySpace) rfl
        unfold pyStrip at hIH ⊢
        rw [hXshape, hXfix]
        rw [hXfix] at hIH
        rw [hIH, pySplit_dropWhile_space, pySplit, if_pos hc]
      · have hsplit := List.takeWhile_append_dropWhile
          (fun x => !isPySpace x) cs
        set w := cs.takeWhile (fun x => !isPySpace x) with hw
        set rest := cs.dropWhile (fun x => !isPySpace x) with hrest
        have hwns : ∀ x ∈ w, isPySpace x = false := by
          intro x hx
          have := mem_takeWhile_sat hx
          simpa using this
        have hresthead : ∀ r0 rs, rest = r0 :: rs → isPySpace r0 = true := by
          intro r0 rs hR
          have := p_head_dropWhile cs r0 rs (by rw [← hrest]; exact hR)
          simpa using this
        have hcoll : collapseWs (c :: cs) = c :: (w ++ collapseWs rest) := by
          rw [collapseWs, if_neg hc]
          congr 1
          rw [← hsplit, collapseWs_nonspace_prefix w rest hwns]
        have hps : pySplit (c :: cs) = (c :: w) :: pySplit rest := by
          rw [pySplit, if_neg hc]
        have hcw : ∀ x ∈ c :: w, isPySpace x = false := by
          intro x hx
          rcases List.mem_cons.mp hx with rfl | hx
          · simpa using hc
          · exact hwns x hx
        rw [hcoll, hps]
        clear_value w rest
        clear hw hrest hcoll hps
        cases rest with
        | nil =>
          rw [collapseWs_nil, List.append_nil, pySplit_nil,
            pyStrip_of_all_nonspace hcw]
          rfl
        | cons r0 rs =>
          have hr0 : isPySpace r0 = true := hresthead r0 rs rfl
          have hcslen : cs.length = w.length + rs.length + 1 := by
            have := congrArg List.length hsplit
            simp only [List.length_append, List.length_cons] at this
            omega
          set t := rs.dropWhile isPySpace with ht
          have hcrest : collapseWs (r0 :: rs) = ' ' :: collapseWs t := by
            rw [collapseWs, if_pos hr0]
          have htlen : t.length < (c :: cs).length := by
            have h1 : t.length ≤ rs.length := by
              rw [ht]
              exact length_dropWhile_le _ _
            simp only [List.length_cons]
            omega
          have hIH := ih t.length htlen t rfl
          have hfix : pyStripLeft (collapseWs t) = collapseWs t := by
            cases hC : t with
            | nil => rw [collapseWs_nil]; rfl
            | cons d ds =>
              have hd : isPySpace d = false := by
                rw [ht] at hC
                exact p_head_dropWhile rs d ds hC
              rw [collapseWs, if_neg (by simp [hd])]
              unfold pyStripLeft
              rw [List.dropWhile_cons, if_neg (by simp [hd])]
          have hIH2 : pyStripRight (collapseWs t) = joinWords (pySplit t) := by
            unfold pyStrip at hIH
            rw [hfix] at hIH
            exact hIH
          have hpsrest : pySplit (r0 :: rs) = pySplit t := by
            rw [pySplit, if_pos hr0, ht, pySplit_dropWhile_space]
          have hstripL : pyStripLeft (c :: (w ++ collapseWs (r0 :: rs))) =
              c :: (w ++ collapseWs (r0 :: rs)) := by
            unfold pyStripLeft
            rw [List.dropWhile_cons, if_neg (by simp [hc])]
          unfold pyStrip
          rw [hstripL, hcrest]
          have hrw : c :: (w ++ ' ' :: collapseWs t) =
              (c :: w) ++ (' ' :: collapseWs t) := by simp
          rw [hrw, pyStripRight_append]
          have hspace : pyStripRight (' ' :: collapseWs t) =
              if pyStripRight (collapseWs t) = [] then []
              else ' ' :: pyStripRight (collapseWs t) := by
            have hap := pyStripRight_append [' '] (collapseWs t)
            rw [show ([' '] ++ collapseWs t) = ' ' :: collapseWs t from rfl]
              at hap
            rw [hap]
            by_cases hz : pyStripRight (collapseWs t) = []
            · rw [if_pos hz, if_pos hz]
              rfl
            · rw [if_neg hz, if_neg hz]
              rfl
          cases hP : pySplit t with
          | nil =>
            have hz : pyStripRight (collapseWs t) = [] := by
              rw [hIH2, hP]
              rfl
            have hsp0 : pyStripRight (' ' :: collapseWs t) = [] := by
              rw [hspace, if_pos hz]
            have hL : pyStripLeft (c :: w) = c :: w := by
              unfold pyStripLeft
              rw [List.dropWhile_cons, if_neg (by simp [hc])]
            have hsr : pyStripRight (c :: w) = c :: w := by
              have h2 := pyStrip_of_all_nonspace hcw
              unfold pyStrip at h2
              rw [hL] at h2
              exact h2
            rw [hsp0, if_pos rfl, hsr, hpsrest, hP]
            rfl
          | cons w0 ws0 =>
            have hw0 : w0 ≠ [] := (pySplit_words t w0 (by rw [hP]; simp)).1
            have hnz : pyStripRight (collapseWs t) ≠ [] := by
              rw [hIH2, hP]
              exact joinWords_ne_nil hw0
            rw [hspace, if_neg hnz, if_neg (by simp), hIH2, hpsrest, hP,
              joinWords_cons_of_ne (c :: w) (by simp)]

/-- Splitting a space-join of clean words recovers the words. -/
theorem pySplit_joinWords :
    ∀ ws : List (List Char),
      (∀ w ∈ ws, w ≠ [] ∧ ∀ c ∈ w, isPySpace c = false) →
      pySplit (joinWords ws) = ws := by
  intro ws
  induction ws with
  | nil =>
    intro _
    exact pySplit_nil
  | cons uw ws2 ih =>
    intro hws
    obtain ⟨hne, hns⟩ := hws uw (by simp)
    obtain ⟨c, w2, rfl⟩ : ∃ c w2, uw = c :: w2 := by
      cases uw with
      | nil => exact absurd rfl hne
      | cons c w2 => exact ⟨c, w2, rfl⟩
    have hcns : isPySpace c = false := hns c (by simp)
    have hw2ns : ∀ x ∈ w2, (fun x => !isPySpace x) x = true := by
      intro x hx
      simp [hns x (by simp [hx])]
    cases ws2 with
    | nil =>
      rw [show joinWords [c :: w2] = c :: w2 from rfl, pySplit,
        if_neg (by simp [hcns]),
        takeWhile_eq_self_of_all hw2ns,
        dropWhile_eq_nil_of_all hw2ns, pySplit_nil]
    | cons a t =>
      rw [joinWords_cons_of_ne _ (by simp), List.cons_append, pySplit,
        if_neg (by simp [hcns]),
        takeWhile_append_all hw2ns,
        dropWhile_append_all hw2ns]
      rw [show (' ' :: joinWords (a :: t)).takeWhile
          (fun x => !isPySpace x) = [] from by
            rw [List.takeWhile_cons, if_neg (by decide)]]
      rw [show (' ' :: joinWords (a :: t)).dropWhile
          (fun x => !isPySpace x) = ' ' :: joinWords (a :: t) from by
            rw [List.dropWhile_cons, if_neg (by decide)]]
      rw [List.append_nil, pySplit, if_pos (by decide),
        ih (fun x hx => hws x (by simp [hx]))]

theorem isPySpace_replaceChar (c : Char) :
    isPySpace (if c = '\n' then ' ' else c) = isPySpace c := by
  by_cases hc : c = '\n'
  · subst hc
    decide
  · rw [if_neg hc]

theorem map_id_of_mem {α : Type} {f : α → α} :
    ∀ l : List α, (∀ x ∈ l, f x = x) → l.map f = l := by
  intro l
  induction l with
  | nil => intro _; rfl
  | cons a t ih =>
    intro h
    rw [List.map_cons, h a (by simp), ih (fun x hx => h x (by simp [hx]))]

/-- Turning newlines into spaces does not change the word sequence. -/
theorem pySplit_replaceNewlines (s : List Char) :
    pySplit (replaceNewlines s) = pySplit s := by
  generalize hk : s.length = k
  induction k using Nat.strong_induction_on generalizing s with
  | _ k ih =>
    cases s with
    | nil =>
      subst hk
      rfl
    | cons c cs =>
      subst hk
      rw [show replaceNewlines (c :: cs) =
        (if c = '\n' then ' ' else c) :: replaceNewlines cs from rfl]
      by_cases hc : isPySpace c
      · rw [pySplit, if_pos (by rw [isPySpace_replaceChar]; exact hc),
          pySplit, if_pos hc]
        exact ih cs.length (by simp) cs rfl
      · have hcn : ¬(c = '\n') := by
          intro hcon
          subst hcon
          simp [isPySpace] at hc
        rw [if_neg hcn, pySplit, if_neg hc, pySplit, if_neg hc]
        have hpred : (fun x => !isPySpace x) ∘
            (fun c => if c = '\n' then ' ' else c) =
            (fun x : Char => !isPySpace x) := by
          funext x
          simp only [Function.comp_apply, isPySpace_replaceChar]
        have htake : (replaceNewlines cs).takeWhile (fun x => !isPySpace x) =
            cs.takeWhile (fun x => !isPySpace x) := by
          unfold replaceNewlines
          rw [List.takeWhile_map, hpred]
          apply map_id_of_mem
          intro x hx
          have hxs := mem_takeWhile_sat hx
          have : ¬(x = '\n') := by
            intro hcon
            subst hcon
            simp [isPySpace] at hxs
          rw [if_neg this]
        have hdrop : (replaceNewlines cs).dropWhile (fun x => !isPySpace x) =
            replaceNewlines (cs.dropWhile (fun x => !isPySpace x)) := by
          unfold replaceNewlines
          rw [List.dropWhile_map, hpred]
        rw [htake, hdrop,
          ih (cs.dropWhile (fun x => !isPySpace x)).length
            (Nat.lt_succ_of_le (length_dropWhile_le _ _)) _ rfl]

/-- `clean_paragraph` is exactly the space-join of the text's words. -/
theorem clean_paragraph_joinWords (s : List Char) :
    clean_paragraph s = joinWords (pySplit s) := by
  unfold clean_paragraph
  rw [pyStrip_collapseWs, pySplit_replaceNewlines]

/-- The space-joined reading of a wrap equals the space-joined word
sequence (helper shared by C1 and C10). -/
theorem wrap_joinWords (t : List Char) (width : Nat) :
    joinWords (wrap t width) = joinWords (pySplit t) := by
  rw [show wrap t width = wrapAux width (pySplit t) [] [] from rfl,
    wrapAux_joinWords width (pySplit t) [] []
      (fun w hw => (pySplit_words t w hw).1)]
  simp

/-- Wrapping a cleaned paragraph and joining the lines with single
spaces restores the cleaned paragraph. -/
theorem joinWords_wrap_clean (p : List Char) (width : Nat) :
    joinWords (wrap (clean_paragraph p) width) = clean_paragraph p := by
  rw [wrap_joinWords, clean_paragraph_joinWords,
    pySplit_joinWords (pySplit p) (pySplit_words p)]

/-! ## C1: pagination conservation -/

/-- Cut a page-line stream at its blank separator lines, recovering the
per-paragraph groups of wrapped lines. -/
def splitAtBlanks (ls : List (List Char)) : List (List (List Char)) :=
  if h : ls = [] then []
  else
    (ls.takeWhile (fun l => !l.isEmpty)) ::
      splitAtBlanks ((ls.dropWhile (fun l => !l.isEmpty)).drop 1)
termination_by ls.length
decreasing_by
  have hdw := length_dropWhile_le (fun l : List Char => !l.isEmpty) ls
  have hpos : 0 < ls.length := List.length_pos.mpr h
  simp only [List.length_drop]
  omega

theorem splitAtBlanks_nil : splitAtBlanks [] = [] := by
  rw [splitAtBlanks]
  simp

/-- `splitAtBlanks` undoes flattening blank-terminated groups of
non-blank lines. -/
theorem splitAtBlanks_concat :
    ∀ groups : List (List (List Char)),
      (∀ g ∈ groups, ∀ l ∈ g, l ≠ []) →
      splitAtBlanks ((groups.map (fun g => g ++ [[]])).flatten) = groups := by
  intro groups
  induction groups with
  | nil =>
    intro _
    exact splitAtBlanks_nil
  | cons g t ih =>
    intro hne
    have hg : ∀ l ∈ g, (fun l : List Char => !l.isEmpty) l = true := by
      intro l hl
      simpa using hne g (by simp) l hl
    have hshape : ((g :: t).map (fun g => g ++ [[]])).flatten =
        g ++ [] :: ((t.map (fun g => g ++ [[]])).flatten) := by
      simp
    rw [hshape, splitAtBlanks]
    rw [dif_neg (by
      intro hcon
      have := congrArg List.length hcon
      simp at this)]
    rw [takeWhile_append_all hg, dropWhile_append_all hg]
    rw [show (([] : List Char) ::
        ((t.map (fun g => g ++ [[]])).flatten)).takeWhile
        (fun l => !l.isEmpty) = [] from by
          rw [List.takeWhile_cons, if_neg (by decide)]]
    rw [show (([] : List Char) ::
        ((t.map (fun g => g ++ [[]])).flatten)).dropWhile
        (fun l => !l.isEmpty) = [] ::
          ((t.map (fun g => g ++ [[]])).flatten) from by
          rw [List.dropWhile_cons, if_neg (by decide)]]
    rw [List.append_nil, List.drop_one, List.tail_cons,
      ih (fun g2 hg2 => hne g2 (by simp [hg2]))]

/-- Flattening chunked-and-mapped groups equals mapping over the
flattened list. -/
theorem flatten_map_flatten {α β : Type} (g : α → List β) :
    ∀ LL : List (List α),
      (LL.map (fun b => (b.map g).flatten)).flatten =
        ((LL.flatten).map g).flatten := by
  intro LL
  induction LL with
  | nil => simp
  | cons b t ih => simp [ih]

/-- Claim C1: for a non-empty paragraph list (and the positive
configuration limits the program guarantees), cutting the concatenated
page lines at the blank separators and space-joining each group
reproduces exactly the whitespace-normalized pre-split paragraph
sequence: no paragraph is dropped or reordered, only whitespace
structure changes. -/
theorem build_text_pages_conservation (maxC parasPerPage width : Nat)
    (paras : List (List Char)) (h0 : paras ≠ []) (h1 : 1 ≤ maxC)
    (h2 : 1 ≤ parasPerPage) :
    (splitAtBlanks
        ((build_text_pages maxC parasPerPage width paras).flatten)).map
      joinWords = (preSplit maxC paras).map clean_paragraph := by
  obtain ⟨m, rfl⟩ : ∃ m, parasPerPage = m + 1 := ⟨parasPerPage - 1, by omega⟩
  unfold build_text_pages
  rw [if_neg h0]
  set processed := preSplit maxC paras with hproc
  set W := max 10 width with hW
  have hstep1 : ((chunk_paragraphs processed (m + 1)).map (fun block =>
      (block.map (fun para =>
        wrap (clean_paragraph para) W ++ [[]])).flatten)).flatten =
      (processed.map (fun para =>
        wrap (clean_paragraph para) W ++ [[]])).flatten := by
    rw [flatten_map_flatten]
    unfold chunk_paragraphs
    rw [chunksOf_flatten]
  rw [hstep1]
  have hstep2 : processed.map (fun para =>
      wrap (clean_paragraph para) W ++ [[]]) =
      (processed.map (fun para => wrap (clean_paragraph para) W)).map
        (fun g => g ++ [[]]) := by
    rw [List.map_map]
    rfl
  rw [hstep2, splitAtBlanks_concat _ (by
    intro g hg l hl
    obtain ⟨para, _, rfl⟩ := List.mem_map.mp hg
    exact wrapAux_ne_nil W (pySplit (clean_paragraph para)) [] [] (by simp)
      (fun w hw => (pySplit_words _ w hw).1) l hl)]
  rw [List.map_map]
  apply List.map_congr_left
  intro para _
  exact joinWords_wrap_clean para W

/-- Concrete instance of `build_text_pages_conservation`: limit 4, two
paragraphs per page, narrow terminal. -/
theorem build_text_pages_conservation_witness :
    (["ab cd".toList, "x  y".toList] ≠ []) ∧ (1 ≤ 4) ∧ (1 ≤ 2) ∧
    (splitAtBlanks
        ((build_text_pages 4 2 12 ["ab cd".toList, "x  y".toList]).flatten)).map
      joinWords =
      (preSplit 4 ["ab cd".toList, "x  y".toList]).map clean_paragraph :=
  ⟨by decide, by decide, by decide,
    build_text_pages_conservation 4 2 12 ["ab cd".toList, "x  y".toList]
      (by decide) (by decide) (by decide)⟩

/-! ## C3: continuation next-URL computation -/

/-- Modelled from the spec words of claim C3 (for comparison with the
code): the `/page/<N>` segment is parsed — first match, the regex
`re.search` semantics — and the candidate is that same match's prefix
followed by `/page/<N+1>`; with no match, the URL without its trailing
slashes followed by `/page/2`. -/
def c3_claim_candidate (url : List Char) : List Char :=
  match findPageNumFrom 0 url with
  | some (i, ds) => url.take i ++ pageTag ++ natToChars (digitsToNat ds + 1)
  | none =>
    (url.reverse.dropWhile (fun c => c = '/')).reverse ++ pageTag ++
      natToChars 2

/-- Claim C3 as stated is false: on `/page/2/page/3` the code takes `N`
from the first match but the prefix from before the last `/page/`, and
probes `/page/2/page/3` itself, while the claim's candidate (prefix of
the parsed segment with `N+1`) is `/page/3`. -/
theorem try_next_url_counterexample :
    try_next_url "/page/2/page/3".toList = "/page/2/page/3".toList ∧
    c3_claim_candidate "/page/2/page/3".toList = "/page/3".toList ∧
    try_next_url "/page/2/page/3".toList ≠
      c3_claim_candidate "/page/2/page/3".toList := by
  refine ⟨by decide, by decide, by decide⟩

theorem isPrefixOf_append_self (p r : List Char) :
    p.isPrefixOf (p ++ r) = true := by
  induction p with
  | nil => simp [List.isPrefixOf]
  | cons a t ih =>
    simp only [List.cons_append, List.isPrefixOf, beq_self_eq_true,
      Bool.true_and]
    exact ih

theorem findPageNumFrom_nil (i : Nat) : findPageNumFrom i [] = none := rfl

theorem findPageNumFrom_cons (i : Nat) (c : Char) (t : List Char) :
    findPageNumFrom i (c :: t) =
      if pageTag.isPrefixOf (c :: t) ∧ digitHead ((c :: t).drop 6) then
        some (i, ((c :: t).drop 6).takeWhile Char.isDigit)
      else findPageNumFrom (i + 1) t := rfl

theorem rfindTagFrom_nil (i : Nat) : rfindTagFrom i [] = none := rfl

theorem rfindTagFrom_cons (i : Nat) (c : Char) (t : List Char) :
    rfindTagFrom i (c :: t) =
      match rfindTagFrom (i + 1) t with
      | some j => some j
      | none => if pageTag.isPrefixOf (c :: t) then some i else none := rfl

/-- At a real `/page/<digits>` occurrence the regex model matches and
captures exactly the digit run. -/
theorem findPageNum_at_match (i : Nat) (d b : List Char) (hd : d ≠ [])
    (hdig : ∀ c ∈ d, c.isDigit = true)
    (hb : b = [] ∨ (b.headD ' ').isDigit = false) :
    findPageNumFrom i (pageTag ++ d ++ b) = some (i, d) := by
  obtain ⟨c0, d2, rfl⟩ : ∃ c0 d2, d = c0 :: d2 := by
    cases d with
    | nil => exact absurd rfl hd
    | cons c0 d2 => exact ⟨c0, d2, rfl⟩
  have hdrop : (pageTag ++ (c0 :: d2) ++ b).drop 6 = (c0 :: d2) ++ b := by
    rw [List.append_assoc,
      show (6 : Nat) = pageTag.length from rfl, List.drop_left]
  have hpre : pageTag.isPrefixOf (pageTag ++ (c0 :: d2) ++ b) = true := by
    rw [List.append_assoc]
    exact isPrefixOf_append_self pageTag _
  have hcons : ∃ x xs, pageTag ++ (c0 :: d2) ++ b = x :: xs :=
    ⟨'/', ('p' :: 'a' :: 'g' :: 'e' :: '/' :: (c0 :: d2)) ++ b, by rfl⟩
  obtain ⟨x, xs, hx⟩ := hcons
  rw [hx] at hdrop hpre ⊢
  rw [findPageNumFrom_cons, if_pos ⟨hpre, by
    rw [hdrop]
    simp only [digitHead, List.cons_append, List.headD_cons]
    exact hdig c0 (by simp)⟩]
  rw [hdrop]
  congr 1
  rw [List.cons_append, List.takeWhile_cons,
    if_pos (by simpa using hdig c0 (by simp))]
  congr 1
  rw [takeWhile_append_all (fun x hx2 => hdig x (by simp [hx2]))]
  rcases hb with rfl | hb0
  · simp
  · cases b with
    | nil => simp
    | cons b0 bs =>
      rw [List.takeWhile_cons, if_neg (by
        simp only [List.headD_cons] at hb0
        simp [hb0])]
      simp

/-- With a unique `/page/` occurrence, the first-match scan lands on
it. -/
theorem findPageNum_full :
    ∀ (a : List Char) (i : Nat) (d b : List Char), d ≠ [] →
      (∀ c ∈ d, c.isDigit = true) →
      (b = [] ∨ (b.headD ' ').isDigit = false) →
      (∀ j, pageTag.isPrefixOf ((a ++ pageTag ++ d ++ b).drop j) = true →
        j = a.length) →
      findPageNumFrom i (a ++ pageTag ++ d ++ b) =
        some (i + a.length, d) := by
  intro a
  induction a with
  | nil =>
    intro i d b hd hdig hb _
    simp only [List.nil_append, List.length_nil, Nat.add_zero]
    exact findPageNum_at_match i d b hd hdig hb
  | cons x a2 ih =>
    intro i d b hd hdig hb huniq
    have hno : ¬(pageTag.isPrefixOf ((x :: a2) ++ pageTag ++ d ++ b)
        = true) := by
      intro hcon
      have := huniq 0 (by rw [List.drop_zero]; exact hcon)
      simp at this
    rw [show (x :: a2) ++ pageTag ++ d ++ b =
      x :: (a2 ++ pageTag ++ d ++ b) from by simp] at hno ⊢
    rw [findPageNumFrom_cons, if_neg (by
      intro hcon
      exact hno hcon.1)]
    rw [ih (i + 1) d b hd hdig hb (by
      intro j hj
      have := huniq (j + 1) (by
        rw [show ((x :: a2) ++ pageTag ++ d ++ b) =
          x :: (a2 ++ pageTag ++ d ++ b) from by simp, List.drop_succ_cons]
        exact hj)
      simpa using this)]
    have harith : i + 1 + a2.length = i + (x :: a2).length := by
      simp only [List.length_cons]
      omega
    rw [harith]

theorem rfindTag_none :
    ∀ (l : List Char) (i : Nat),
      (∀ j, ¬(pageTag.isPrefixOf (l.drop j) = true)) →
      rfindTagFrom i l = none := by
  intro l
  induction l with
  | nil =>
    intro i _
    rfl
  | cons c t ih =>
    intro i h
    rw [rfindTagFrom_cons, ih (i + 1) (fun j hj => by
      exact h (j + 1) (by rw [List.drop_succ_cons]; exact hj))]
    rw [if_neg (by
      have := h 0
      rw [List.drop_zero] at this
      exact this)]

/-- With a unique `/page/` occurrence, the rightmost-occurrence scan
also lands on it. -/
theorem rfindTag_full :
    ∀ (a : List Char) (i : Nat) (d b : List Char),
      (∀ j, pageTag.isPrefixOf ((a ++ pageTag ++ d ++ b).drop j) = true →
        j = a.length) →
      rfindTagFrom i (a ++ pageTag ++ d ++ b) = some (i + a.length) := by
  intro a
  induction a with
  | nil =>
    intro i d b huniq
    obtain ⟨x, xs, hx⟩ : ∃ x xs, ([] : List Char) ++ pageTag ++ d ++ b =
        x :: xs :=
      ⟨'/', ('p' :: 'a' :: 'g' :: 'e' :: '/' :: []) ++ d ++ b, by simp [pageTag]⟩
    have htail : ∀ j, ¬(pageTag.isPrefixOf (xs.drop j) = true) := by
      intro j hj
      have hdropeq : xs.drop j = (([] : List Char) ++ pageTag ++ d ++
          b).drop (j + 1) := by
        rw [hx, List.drop_succ_cons]
      rw [hdropeq] at hj
      have := huniq (j + 1) hj
      simp at this
    have hpre : pageTag.isPrefixOf (([] : List Char) ++ pageTag ++ d ++ b)
        = true := by
      simp only [List.nil_append, List.append_assoc]
      exact isPrefixOf_append_self pageTag _
    rw [hx] at hpre ⊢
    rw [rfindTagFrom_cons, rfindTag_none xs (i + 1) htail, if_pos hpre]
    simp
  | cons x a2 ih =>
    intro i d b huniq
    rw [show (x :: a2) ++ pageTag ++ d ++ b =
      x :: (a2 ++ pageTag ++ d ++ b) from by simp]
    rw [rfindTagFrom_cons, ih (i + 1) d b (by
      intro j hj
      have := huniq (j + 1) (by
        rw [show ((x :: a2) ++ pageTag ++ d ++ b) =
          x :: (a2 ++ pageTag ++ d ++ b) from by simp, List.drop_succ_cons]
        exact hj)
      simpa using this)]
    simp only [List.length_cons]
    congr 1
    omega

/-- Claim C3 amended: when the URL has no `/page/<digits>` match the
candidate appends `/page/2` to the URL stripped of all trailing
slashes; when the URL contains exactly one `/page/` occurrence,
followed by the digits of `N`, the candidate is that prefix followed by
`/page/<N+1>`.  (With several `/page/` occurrences the code instead
combines the first match's number with the last occurrence's prefix —
see the counterexample.) -/
theorem try_next_url_amended :
    (∀ url : List Char, findPageNumFrom 0 url = none →
      try_next_url url =
        (url.reverse.dropWhile (fun c => c = '/')).reverse ++ pageTag ++
          natToChars 2) ∧
    (∀ a d b : List Char, d ≠ [] → (∀ c ∈ d, c.isDigit = true) →
      (b = [] ∨ (b.headD ' ').isDigit = false) →
      (∀ j, pageTag.isPrefixOf ((a ++ pageTag ++ d ++ b).drop j) = true →
        j = a.length) →
      try_next_url (a ++ pageTag ++ d ++ b) =
        a ++ pageTag ++ natToChars (digitsToNat d + 1)) := by
  constructor
  · intro url hnone
    unfold try_next_url
    rw [hnone]
  · intro a d b hd hdig hb huniq
    unfold try_next_url
    rw [findPageNum_full a 0 d b hd hdig hb huniq,
      rfindTag_full a 0 d b huniq]
    simp only [Option.getD_some, Nat.zero_add]
    congr 1
    rw [List.append_assoc, List.append_assoc, List.take_left]

/-- Reduce the unique-occurrence condition to a bounded check. -/
theorem uniq_of_bounded (L : List Char) (n : Nat)
    (h : ∀ j, j < L.length → pageTag.isPrefixOf (L.drop j) = true → j = n) :
    ∀ j, pageTag.isPrefixOf (L.drop j) = true → j = n := by
  intro j hj
  by_cases hlt : j < L.length
  · exact h j hlt hj
  · exfalso
    rw [List.drop_eq_nil_of_le (by omega)] at hj
    simp [pageTag, List.isPrefixOf] at hj

/-- Concrete instance of `try_next_url_amended` on a single-occurrence
URL. -/
theorem try_next_url_amended_witness :
    try_next_url "http://x/page/3".toList =
      "http://x".toList ++ pageTag ++ natToChars (digitsToNat ['3'] + 1) := by
  have h := try_next_url_amended.2 "http://x".toList ['3'] []
    (by decide) (by decide) (Or.inl rfl)
    (uniq_of_bounded ("http://x".toList ++ pageTag ++ ['3'] ++ [])
      "http://x".toList.length (by decide))
  rw [show "http://x".toList ++ pageTag ++ ['3'] ++ [] =
    "http://x/page/3".toList from by decide] at h
  exact h

/-! ## C9: extraction determinism -/

/-- Claim C9: content extraction is deterministic.  In the embedding
the extractor is a pure function of the markup tree, the base URL and
the URL-join collaborator, and the only module state it reads
(`SAFE_MODE`, `STRIP_DDG_TRACKING`) consists of constants, so two runs
on the same inputs produce the same paragraphs, links, main image and
title. -/
theorem extract_single_page_deterministic
    (joinUrl : List Char → List Char → List Char) (html : Node)
    (base : List Char) :
    extract_single_page joinUrl html base =
      extract_single_page joinUrl html base := rfl

/-! ## C4: normalizer idempotence -/

theorem char_toNat_ofNat {n : Nat} (h1 : 97 ≤ n) (h2 : n ≤ 122) :
    (Char.ofNat n).toNat = n := by
  have hv : n.isValidChar := Or.inl (by omega)
  unfold Char.ofNat
  rw [dif_pos hv]
  unfold Char.ofNatAux
  simp only [Char.toNat]
  show (UInt32.ofNat' n _).toNat = n
  simp [UInt32.ofNat', UInt32.toNat]

theorem isAlpha_iff_toNat (c : Char) :
    c.isAlpha = true ↔
      ((65 ≤ c.toNat ∧ c.toNat ≤ 90) ∨ (97 ≤ c.toNat ∧ c.toNat ≤ 122)) := by
  simp only [Char.isAlpha, Char.isUpper, Char.isLower, Bool.or_eq_true,
    Bool.and_eq_true, decide_eq_true_eq, ge_iff_le]
  constructor
  · rintro (⟨h1, h2⟩ | ⟨h1, h2⟩)
    · exact Or.inl ⟨h1, h2⟩
    · exact Or.inr ⟨h1, h2⟩
  · rintro (⟨h1, h2⟩ | ⟨h1, h2⟩)
    · exact Or.inl ⟨h1, h2⟩
    · exact Or.inr ⟨h1, h2⟩

theorem isDigit_iff_toNat (c : Char) :
    c.isDigit = true ↔ (48 ≤ c.toNat ∧ c.toNat ≤ 57) := by
  simp only [Char.isDigit, Bool.and_eq_true, decide_eq_true_eq, ge_iff_le]
  constructor
  · rintro ⟨h1, h2⟩
    exact ⟨h1, h2⟩
  · rintro ⟨h1, h2⟩
    exact ⟨h1, h2⟩

theorem toLower_cases (c : Char) :
    (65 ≤ c.toNat ∧ c.toNat ≤ 90 ∧ (c.toLower).toNat = c.toNat + 32) ∨
    (¬(65 ≤ c.toNat ∧ c.toNat ≤ 90) ∧ c.toLower = c) := by
  by_cases h : 65 ≤ c.toNat ∧ c.toNat ≤ 90
  · left
    refine ⟨h.1, h.2, ?_⟩
    unfold Char.toLower
    rw [if_pos ⟨h.1, h.2⟩]
    exact char_toNat_ofNat (by omega) (by omega)
  · right
    refine ⟨h, ?_⟩
    unfold Char.toLower
    rw [if_neg (by
      intro hcon
      exact h ⟨hcon.1, hcon.2⟩)]

theorem isAlpha_toLower {c : Char} (h : c.isAlpha = true) :
    (c.toLower).isAlpha = true := by
  rcases toLower_cases c with ⟨h1, h2, h3⟩ | ⟨_, heq⟩
  · rw [isAlpha_iff_toNat, h3]
    right
    omega
  · rw [heq]
    exact h

theorem toLower_idem (c : Char) : (c.toLower).toLower = c.toLower := by
  rcases toLower_cases c with ⟨h1, h2, h3⟩ | ⟨_, heq⟩
  · rcases toLower_cases c.toLower with ⟨h4, h5, _⟩ | ⟨_, heq2⟩
    · rw [h3] at h5
      omega
    · exact heq2
  · rw [heq, heq]

theorem schemeChar_toLower {c : Char} (h : schemeChar c = true) :
    schemeChar c.toLower = true := by
  unfold schemeChar at h ⊢
  simp only [Bool.or_eq_true] at h ⊢
  rcases h with ((((ha | hd) | hp) | hm) | hdot)
  · exact Or.inl (Or.inl (Or.inl (Or.inl (isAlpha_toLower ha))))
  · rcases toLower_cases c with ⟨h1, _, _⟩ | ⟨_, heq⟩
    · rw [isDigit_iff_toNat] at hd
      omega
    · rw [heq]
      exact Or.inl (Or.inl (Or.inl (Or.inr hd)))
  · have : c = '+' := by simpa using hp
    subst this
    decide
  · have : c = '-' := by simpa using hm
    subst this
    decide
  · have : c = '.' := by simpa using hdot
    subst this
    decide

theorem map_toLower_idem (l : List Char) :
    (l.map Char.toLower).map Char.toLower = l.map Char.toLower := by
  rw [List.map_map]
  apply List.map_congr_left
  intro c _
  exact toLower_idem c

theorem isPrefixOf_exists :
    ∀ (p l : List Char), p.isPrefixOf l = true → ∃ t, l = p ++ t := by
  intro p
  induction p with
  | nil =>
    intro l _
    exact ⟨l, rfl⟩
  | cons a t ih =>
    intro l h
    cases l with
    | nil => simp [List.isPrefixOf] at h
    | cons b bs =>
      simp only [List.isPrefixOf, Bool.and_eq_true, beq_iff_eq] at h
      obtain ⟨rfl, h2⟩ := h
      obtain ⟨r, rfl⟩ := ih bs h2
      exact ⟨r, rfl⟩

theorem containsSub_of_isPrefixOf {p l : List Char}
    (h : p.isPrefixOf l = true) : containsSub p l = true := by
  cases l with
  | nil =>
    cases p with
    | nil => rfl
    | cons a t => simp [List.isPrefixOf] at h
  | cons c cs =>
    unfold containsSub
    rw [h]
    rfl

theorem containsSub_ddg_ne_nil {n : List Char}
    (h : containsSub "duckduckgo.com".toList n = true) : n ≠ [] := by
  intro hn
  rw [hn] at h
  exact absurd h (by decide)

theorem parse_qsl_nil : parse_qsl [] = [] := rfl

theorem headD_append_of_ne_nil {s : List Char} (r : List Char) (d : Char)
    (h : s ≠ []) : (s ++ r).headD d = s.headD d := by
  cases s with
  | nil => exact absurd rfl h
  | cons a t => rfl

theorem takeWhile_eq_cons_head {p : Char → Bool} {l t : List Char} {a : Char}
    (h : l.takeWhile p = a :: t) : l.headD ' ' = a := by
  cases l with
  | nil => simp [List.takeWhile] at h
  | cons b bs =>
    by_cases hb : p b
    · rw [List.takeWhile_cons_of_pos hb] at h
      injection h
    · rw [List.takeWhile_cons_of_neg hb] at h
      exact absurd h (by simp)

theorem mem_of_mem_takeWhile {α : Type} {p : α → Bool} {x : α} :
    ∀ {l : List α}, x ∈ l.takeWhile p → x ∈ l := by
  intro l
  induction l with
  | nil =>
    intro h
    simpa [List.takeWhile] using h
  | cons a t ih =>
    intro h
    rw [List.takeWhile] at h
    by_cases ha : p a
    · rw [ha] at h
      simp only [cond] at h
      rcases List.mem_cons.mp h with rfl | h2
      · exact List.mem_cons_self _ _
      · exact List.mem_cons_of_mem _ (ih h2)
    · rw [Bool.not_eq_true] at ha
      rw [ha] at h
      simp only [cond] at h
      exact absurd h (by simp)

theorem schemeChar_ne {c : Char} (h : schemeChar c = true) :
    c ≠ ':' ∧ c ≠ '?' ∧ c ≠ '#' := by
  refine ⟨?_, ?_, ?_⟩ <;> intro hc <;> subst hc <;> exact absurd h (by decide)

theorem netlocChar_ne {c : Char} (h : netlocChar c = true) :
    c ≠ '/' ∧ c ≠ '?' ∧ c ≠ '#' := by
  unfold netlocChar at h
  simp only [Bool.not_eq_true', Bool.or_eq_false_iff, decide_eq_false_iff_not] at h
  exact ⟨h.1.1, h.1.2, h.2⟩

theorem drop_append_cons (s R : List Char) (c : Char) :
    (s ++ c :: R).drop (s.length + 1) = R := by
  have hlen : s.length + 1 = (s ++ [c]).length := by simp
  rw [List.append_cons, hlen]
  exact List.drop_left (s ++ [c]) R

theorem urlparse_scheme_eq (u : List Char) :
    (urlparse u).scheme = (splitScheme u).1 := rfl

theorem urlparse_netloc_eq (u : List Char) :
    (urlparse u).netloc = (splitNetloc (splitScheme u).2).1 := rfl

theorem urlparse_path_eq (u : List Char) :
    (urlparse u).path =
      ((splitNetloc (splitScheme u).2).2.takeWhile
        (fun x => x ≠ '#')).takeWhile (fun x => x ≠ '?') := rfl

theorem splitNetloc_netloc_all (r : List Char) :
    ((splitNetloc r).1).all netlocChar = true := by
  unfold splitNetloc
  split
  · exact List.all_eq_true.mpr (fun c hc => mem_takeWhile_sat hc)
  · rfl

theorem urlparse_netloc_all (u : List Char) :
    ((urlparse u).netloc).all netlocChar = true := by
  rw [urlparse_netloc_eq]
  exact splitNetloc_netloc_all _

theorem splitScheme_inv (u : List Char) :
    (splitScheme u).1 = [] ∨
      (((splitScheme u).1.headD ' ').isAlpha = true ∧
       (splitScheme u).1.all schemeChar = true ∧
       (splitScheme u).1.map Char.toLower = (splitScheme u).1) := by
  unfold splitScheme
  simp only []
  split
  · next h =>
    simp only [Bool.and_eq_true, decide_eq_true_eq] at h
    obtain ⟨⟨⟨hlt, hpos⟩, halpha⟩, hsc⟩ := h
    right
    refine ⟨?_, ?_, ?_⟩
    · cases hp : u.takeWhile (fun c => c ≠ ':') with
      | nil =>
        rw [hp] at hpos
        simp at hpos
      | cons a tl =>
        have hhead := takeWhile_eq_cons_head hp
        show (a.toLower).isAlpha = true
        rw [hhead] at halpha
        exact isAlpha_toLower halpha
    · rw [List.all_map]
      refine List.all_eq_true.mpr (fun c hc => ?_)
      exact schemeChar_toLower (List.all_eq_true.mp hsc c hc)
    · exact map_toLower_idem _
  · left
    rfl

theorem urlparse_scheme_inv (u : List Char) :
    (urlparse u).scheme = [] ∨
      (((urlparse u).scheme.headD ' ').isAlpha = true ∧
       (urlparse u).scheme.all schemeChar = true ∧
       (urlparse u).scheme.map Char.toLower = (urlparse u).scheme) := by
  rw [urlparse_scheme_eq]
  exact splitScheme_inv u

theorem urlparse_path_inv (u : List Char) :
    ∀ c ∈ (urlparse u).path, c ≠ '?' ∧ c ≠ '#' := by
  intro c hc
  rw [urlparse_path_eq] at hc
  have h1 := mem_takeWhile_sat hc
  have h2 := mem_takeWhile_sat (mem_of_mem_takeWhile hc)
  exact ⟨by simpa using h1, by simpa using h2⟩

theorem urlunparse_eq (s n pa f : List Char) (hn0 : n ≠ []) :
    urlunparse ⟨s, n, pa, [], f⟩ =
      (if s ≠ [] then
        s ++ ':' :: ('/' :: '/' ::
          (n ++ (if pa ≠ [] ∧ pa.take 1 ≠ ['/'] then '/' :: pa else pa)))
       else '/' :: '/' ::
          (n ++ (if pa ≠ [] ∧ pa.take 1 ≠ ['/'] then '/' :: pa else pa)))
      ++ (if f ≠ [] then '#' :: f else []) := by
  unfold urlunparse
  simp only []
  rw [if_pos (Or.inl hn0)]
  rw [if_neg (show ¬(([] : List Char) ≠ []) from fun h => h rfl)]
  by_cases hf : f ≠ [] <;> by_cases hs : s ≠ [] <;> simp [hf, hs]

theorem norm_path_shape (pa : List Char) :
    (if pa ≠ [] ∧ pa.take 1 ≠ ['/'] then '/' :: pa else pa) = [] ∨
      ∃ t, (if pa ≠ [] ∧ pa.take 1 ≠ ['/'] then '/' :: pa else pa) = '/' :: t := by
  by_cases h : pa ≠ [] ∧ pa.take 1 ≠ ['/']
  · rw [if_pos h]
    exact Or.inr ⟨pa, rfl⟩
  · rw [if_neg h]
    rcases not_and_or.mp h with h1 | h2
    · exact Or.inl (not_not.mp h1)
    · have h3 := not_not.mp h2
      cases pa with
      | nil => exact Or.inl rfl
      | cons a t =>
        have ha : a = '/' := by simpa [List.take] using h3
        exact Or.inr ⟨t, by rw [ha]⟩

theorem norm_path_idem (q : List Char) (hq : q = [] ∨ ∃ t, q = '/' :: t) :
    (if q ≠ [] ∧ q.take 1 ≠ ['/'] then '/' :: q else q) = q := by
  rcases hq with rfl | ⟨t, rfl⟩
  · rw [if_neg]
    intro h
    exact h.1 rfl
  · rw [if_neg]
    intro h
    exact h.2 (by simp [List.take])

theorem norm_path_mem {pa : List Char} {c : Char}
    (hc : c ∈ (if pa ≠ [] ∧ pa.take 1 ≠ ['/'] then '/' :: pa else pa)) :
    c = '/' ∨ c ∈ pa := by
  by_cases h : pa ≠ [] ∧ pa.take 1 ≠ ['/']
  · rw [if_pos h] at hc
    rcases List.mem_cons.mp hc with rfl | h2
    · exact Or.inl rfl
    · exact Or.inr h2
  · rw [if_neg h] at hc
    exact Or.inr hc

theorem urlunparse_norm (s n pa f : List Char) (hn0 : n ≠ []) :
    urlunparse ⟨s, n, if pa ≠ [] ∧ pa.take 1 ≠ ['/'] then '/' :: pa else pa, [], f⟩ =
      urlunparse ⟨s, n, pa, [], f⟩ := by
  rw [urlunparse_eq _ _ _ _ hn0, urlunparse_eq _ _ _ _ hn0]
  rw [norm_path_idem _ (norm_path_shape pa)]

theorem splitNetloc_canonical (n url2 B : List Char) (hn : n.all netlocChar = true)
    (hu2h : url2 = [] ∨ ∃ t, url2 = '/' :: t)
    (hBsh : B = [] ∨ ∃ t, B = '#' :: t) :
    splitNetloc (('/' :: '/' :: (n ++ url2)) ++ B) = (n, url2 ++ B) := by
  have hto : ('/' :: '/' :: (n ++ url2)) ++ B = '/' :: '/' :: (n ++ (url2 ++ B)) := by
    simp [List.append_assoc]
  rw [hto]
  have hw : ∀ x ∈ n, netlocChar x = true := List.all_eq_true.mp hn
  have htake : (url2 ++ B).takeWhile netlocChar = [] := by
    rcases hu2h with rfl | ⟨t, rfl⟩
    · rcases hBsh with rfl | ⟨t2, rfl⟩
      · rfl
      · rw [List.nil_append, List.takeWhile_cons_of_neg (by decide)]
    · rw [List.cons_append, List.takeWhile_cons_of_neg (by decide)]
  have hdropw : (url2 ++ B).dropWhile netlocChar = url2 ++ B := by
    rcases hu2h with rfl | ⟨t, rfl⟩
    · rcases hBsh with rfl | ⟨t2, rfl⟩
      · rfl
      · rw [List.nil_append, List.dropWhile_cons_of_neg (by decide)]
    · rw [List.cons_append, List.dropWhile_cons_of_neg (by decide)]
  unfold splitNetloc
  rw [if_pos (by rfl)]
  have hdrop : ('/' :: '/' :: (n ++ (url2 ++ B))).drop 2 = n ++ (url2 ++ B) := rfl
  rw [hdrop, takeWhile_append_all hw, htake, dropWhile_append_all hw, hdropw]
  simp

theorem splitFirst_hash_canonical (url2 f : List Char)
    (hu2 : ∀ c ∈ url2, c ≠ '#') :
    splitFirst '#' (url2 ++ (if f ≠ [] then '#' :: f else [])) = (url2, f) := by
  unfold splitFirst
  have hw : ∀ x ∈ url2, (fun x => decide (x ≠ '#')) x = true := fun x hx => by
    simpa using hu2 x hx
  rw [takeWhile_append_all hw, dropWhile_append_all hw]
  by_cases hf : f ≠ []
  · rw [if_pos hf, List.takeWhile_cons_of_neg (by simp),
      List.dropWhile_cons_of_neg (by simp)]
    simp
  · have hf0 := not_not.mp hf
    rw [if_neg hf, hf0]
    simp

theorem splitFirst_no_occ (c : Char) (l : List Char) (h : ∀ x ∈ l, x ≠ c) :
    splitFirst c l = (l, []) := by
  unfold splitFirst
  have hw : ∀ x ∈ l, (fun x => decide (x ≠ c)) x = true := fun x hx => by
    simpa using h x hx
  rw [takeWhile_eq_self_of_all hw, dropWhile_eq_nil_of_all hw]
  rfl

theorem splitScheme_slash (r B : List Char) :
    splitScheme (('/' :: '/' :: r) ++ B) = ([], ('/' :: '/' :: r) ++ B) := by
  unfold splitScheme
  simp only []
  split
  · next h =>
    simp only [Bool.and_eq_true] at h
    have halpha := h.1.2
    rw [List.cons_append, List.headD_cons] at halpha
    exact absurd halpha (by decide)
  · rfl

theorem splitScheme_scheme (s R : List Char) (hs0 : s ≠ [])
    (hsh : (s.headD ' ').isAlpha = true) (hsc : s.all schemeChar = true)
    (hsl : s.map Char.toLower = s) :
    splitScheme (s ++ ':' :: R) = (s, R) := by
  have hw : ∀ x ∈ s, (fun x => decide (x ≠ ':')) x = true := fun x hx => by
    simpa using (schemeChar_ne (List.all_eq_true.mp hsc x hx)).1
  have hpre : (s ++ ':' :: R).takeWhile (fun x => x ≠ ':') = s := by
    rw [takeWhile_append_all hw, List.takeWhile_cons_of_neg (by simp)]
    simp
  unfold splitScheme
  simp only [hpre]
  rw [if_pos]
  · rw [hsl, drop_append_cons]
  · simp only [Bool.and_eq_true]
    refine ⟨⟨⟨?_, ?_⟩, ?_⟩, ?_⟩
    · rw [decide_eq_true_eq, List.length_append, List.length_cons]
      omega
    · rw [decide_eq_true_eq]
      exact List.length_pos.mpr hs0
    · rw [headD_append_of_ne_nil _ _ hs0]
      exact hsh
    · exact hsc

theorem parse_canonical_noscheme (n url2 f : List Char)
    (hn : n.all netlocChar = true)
    (hu2q : ∀ c ∈ url2, c ≠ '?' ∧ c ≠ '#')
    (hu2h : url2 = [] ∨ ∃ t, url2 = '/' :: t) :
    urlparse (('/' :: '/' :: (n ++ url2)) ++ (if f ≠ [] then '#' :: f else [])) =
      ⟨[], n, url2, [], f⟩ := by
  have hBsh : (if f ≠ [] then '#' :: f else []) = [] ∨
      ∃ t, (if f ≠ [] then '#' :: f else []) = '#' :: t := by
    by_cases hf : f ≠ []
    · exact Or.inr ⟨f, by rw [if_pos hf]⟩
    · exact Or.inl (by rw [if_neg hf])
  have h1 := splitScheme_slash (n ++ url2) (if f ≠ [] then '#' :: f else [])
  have h2 := splitNetloc_canonical n url2 _ hn hu2h hBsh
  have h3 := splitFirst_hash_canonical url2 f (fun c hc => (hu2q c hc).2)
  have h4 := splitFirst_no_occ '?' url2 (fun c hc => (hu2q c hc).1)
  simp only [urlparse, h1, h2, h3, h4]

theorem parse_canonical_scheme (s n url2 f : List Char) (hs0 : s ≠ [])
    (hsh : (s.headD ' ').isAlpha = true) (hsc : s.all schemeChar = true)
    (hsl : s.map Char.toLower = s)
    (hn : n.all netlocChar = true)
    (hu2q : ∀ c ∈ url2, c ≠ '?' ∧ c ≠ '#')
    (hu2h : url2 = [] ∨ ∃ t, url2 = '/' :: t) :
    urlparse ((s ++ ':' :: ('/' :: '/' :: (n ++ url2))) ++
        (if f ≠ [] then '#' :: f else [])) =
      ⟨s, n, url2, [], f⟩ := by
  have hBsh : (if f ≠ [] then '#' :: f else []) = [] ∨
      ∃ t, (if f ≠ [] then '#' :: f else []) = '#' :: t := by
    by_cases hf : f ≠ []
    · exact Or.inr ⟨f, by rw [if_pos hf]⟩
    · exact Or.inl (by rw [if_neg hf])
  have hW : (s ++ ':' :: ('/' :: '/' :: (n ++ url2))) ++
      (if f ≠ [] then '#' :: f else []) =
      s ++ ':' :: (('/' :: '/' :: (n ++ url2)) ++
        (if f ≠ [] then '#' :: f else [])) := by
    simp
  rw [hW]
  have h1 := splitScheme_scheme s (('/' :: '/' :: (n ++ url2)) ++
      (if f ≠ [] then '#' :: f else [])) hs0 hsh hsc hsl
  have h2 := splitNetloc_canonical n url2 _ hn hu2h hBsh
  have h3 := splitFirst_hash_canonical url2 f (fun c hc => (hu2q c hc).2)
  have h4 := splitFirst_no_occ '?' url2 (fun c hc => (hu2q c hc).1)
  simp only [urlparse, h1, h2, h3, h4]

theorem urlparse_roundtrip (s n pa f : List Char)
    (hsInv : s = [] ∨ ((s.headD ' ').isAlpha = true ∧ s.all schemeChar = true ∧
      s.map Char.toLower = s))
    (hn : n.all netlocChar = true) (hn0 : n ≠ [])
    (hpa : ∀ c ∈ pa, c ≠ '?' ∧ c ≠ '#') :
    urlparse (urlunparse ⟨s, n, pa, [], f⟩) =
      ⟨s, n, if pa ≠ [] ∧ pa.take 1 ≠ ['/'] then '/' :: pa else pa, [], f⟩ := by
  rw [urlunparse_eq s n pa f hn0]
  have hu2q : ∀ c ∈ (if pa ≠ [] ∧ pa.take 1 ≠ ['/'] then '/' :: pa else pa),
      c ≠ '?' ∧ c ≠ '#' := by
    intro c hc
    rcases norm_path_mem hc with rfl | h2
    · exact ⟨by decide, by decide⟩
    · exact hpa c h2
  have hu2h := norm_path_shape pa
  rcases hsInv with rfl | ⟨hsh, hsc, hsl⟩
  · rw [if_neg (show ¬(([] : List Char) ≠ []) from fun h => h rfl)]
    exact parse_canonical_noscheme n _ f hn hu2q hu2h
  · have hs0 : s ≠ [] := by
      intro h
      rw [h] at hsh
      exact absurd hsh (by decide)
    rw [if_pos hs0]
    exact parse_canonical_scheme s n _ f hs0 hsh hsc hsl hn hu2q hu2h

theorem hash_tail_shape (f : List Char) :
    (if f ≠ [] then '#' :: f else []) = [] ∨
      ∃ t, (if f ≠ [] then '#' :: f else []) = '#' :: t := by
  by_cases hf : f ≠ []
  · exact Or.inr ⟨f, by rw [if_pos hf]⟩
  · exact Or.inl (by rw [if_neg hf])

theorem urlunparse_hashfree (s n pa f : List Char)
    (hs : ∀ c ∈ s, schemeChar c = true)
    (hn : n.all netlocChar = true) (hn0 : n ≠ [])
    (hpa : ∀ c ∈ pa, c ≠ '?' ∧ c ≠ '#') :
    ∃ A, (∀ c ∈ A, c ≠ '?' ∧ c ≠ '#') ∧
      urlunparse ⟨s, n, pa, [], f⟩ = A ++ (if f ≠ [] then '#' :: f else []) := by
  refine ⟨_, ?_, urlunparse_eq s n pa f hn0⟩
  intro c hc
  have hnmem : ∀ x ∈ n, x ≠ '?' ∧ x ≠ '#' := fun x hx =>
    ⟨(netlocChar_ne (List.all_eq_true.mp hn x hx)).2.1,
     (netlocChar_ne (List.all_eq_true.mp hn x hx)).2.2⟩
  have hu2 : ∀ x ∈ (if pa ≠ [] ∧ pa.take 1 ≠ ['/'] then '/' :: pa else pa),
      x ≠ '?' ∧ x ≠ '#' := by
    intro x hx
    rcases norm_path_mem hx with rfl | h2
    · exact ⟨by decide, by decide⟩
    · exact hpa x h2
  have hcore : ∀ x ∈ '/' :: '/' ::
      (n ++ (if pa ≠ [] ∧ pa.take 1 ≠ ['/'] then '/' :: pa else pa)),
      x ≠ '?' ∧ x ≠ '#' := by
    intro x hx
    rcases List.mem_cons.mp hx with rfl | hx2
    · exact ⟨by decide, by decide⟩
    rcases List.mem_cons.mp hx2 with rfl | hx3
    · exact ⟨by decide, by decide⟩
    rcases List.mem_append.mp hx3 with hx4 | hx5
    · exact hnmem x hx4
    · exact hu2 x hx5
  by_cases hs0 : s ≠ []
  · rw [if_pos hs0] at hc
    rcases List.mem_append.mp hc with hcs | hcr
    · have hne := schemeChar_ne (hs c hcs)
      exact ⟨hne.2.1, hne.2.2⟩
    rcases List.mem_cons.mp hcr with rfl | hcr2
    · exact ⟨by decide, by decide⟩
    · exact hcore c hcr2
  · rw [if_neg hs0] at hc
    exact hcore c hc

theorem ddg_prefix_impossible (s n pa f : List Char)
    (hs : ∀ c ∈ s, schemeChar c = true)
    (hn : n.all netlocChar = true) (hn0 : n ≠ [])
    (hpa : ∀ c ∈ pa, c ≠ '?' ∧ c ≠ '#') :
    "//duckduckgo.com/l/?".toList.isPrefixOf (urlunparse ⟨s, n, pa, [], f⟩) =
      false := by
  obtain ⟨A, hA, hEq⟩ := urlunparse_hashfree s n pa f hs hn hn0 hpa
  rw [Bool.eq_false_iff]
  intro hp
  obtain ⟨t, hwt⟩ := isPrefixOf_exists _ _ hp
  rw [hEq] at hwt
  have h1 : (A ++ (if f ≠ [] then '#' :: f else [])).takeWhile
      (fun c => c ≠ '#') = A := by
    rw [takeWhile_append_all (fun x hx => by simpa using (hA x hx).2)]
    rcases hash_tail_shape f with he | ⟨t2, he⟩ <;> rw [he]
    · simp
    · rw [List.takeWhile_cons_of_neg (by simp), List.append_nil]
  have h2 : ('?' : Char) ∈ (A ++ (if f ≠ [] then '#' :: f else [])).takeWhile
      (fun c => c ≠ '#') := by
    rw [hwt, takeWhile_append_all (by decide) t]
    exact List.mem_append_left _ (by decide)
  rw [h1] at h2
  exact (hA '?' h2).1 rfl

theorem netloc_of_ddg_wrapper (t : List Char) :
    (urlparse ("//duckduckgo.com/l/?".toList ++ t)).netloc =
      "duckduckgo.com".toList := by
  rw [urlparse_netloc_eq]
  have h0 : "//duckduckgo.com/l/?".toList ++ t =
      '/' :: '/' :: ("duckduckgo.com".toList ++ ('/' :: 'l' :: '/' :: '?' :: t)) :=
    rfl
  rw [h0]
  have h1 := splitScheme_slash
    ("duckduckgo.com".toList ++ ('/' :: 'l' :: '/' :: '?' :: t)) []
  rw [List.append_nil] at h1
  have h2 : splitNetloc
      ('/' :: '/' :: ("duckduckgo.com".toList ++ ('/' :: 'l' :: '/' :: '?' :: t))) =
      ("duckduckgo.com".toList, '/' :: 'l' :: '/' :: '?' :: t) := by
    unfold splitNetloc
    rw [if_pos (by rfl)]
    have hd : ('/' :: '/' ::
        ("duckduckgo.com".toList ++ ('/' :: 'l' :: '/' :: '?' :: t))).drop 2 =
        "duckduckgo.com".toList ++ ('/' :: 'l' :: '/' :: '?' :: t) := rfl
    rw [hd, takeWhile_append_all (by decide), dropWhile_append_all (by decide),
      List.takeWhile_cons_of_neg (by decide), List.dropWhile_cons_of_neg (by decide)]
    simp
  simp only [h1, h2]

theorem strip_eq_self_of_not_contains {v : List Char}
    (h : containsSub "duckduckgo.com".toList (urlparse v).netloc = false) :
    strip_duckduckgo_tracking v = v := by
  have hbp : (!(containsSub "duckduckgo.com".toList (urlparse v).netloc)) = true := by
    rw [h]
    rfl
  unfold strip_duckduckgo_tracking
  simp only []
  rw [if_neg (show ¬((!STRIP_DDG_TRACKING) = true) by decide), if_pos hbp]

theorem strip_eq_of_contains {v : List Char}
    (h : containsSub "duckduckgo.com".toList (urlparse v).netloc = true) :
    strip_duckduckgo_tracking v =
      urlunparse ⟨(urlparse v).scheme, (urlparse v).netloc, (urlparse v).path, [],
        (urlparse v).fragment⟩ := by
  have hbp : (!(containsSub "duckduckgo.com".toList (urlparse v).netloc)) = false := by
    rw [h]
    rfl
  unfold strip_duckduckgo_tracking
  simp only []
  rw [if_neg (show ¬((!STRIP_DDG_TRACKING) = true) by decide),
    if_neg (Bool.eq_false_iff.mp hbp)]

theorem unwrap_eq_self_of_not_contains {v : List Char}
    (h : containsSub "duckduckgo.com".toList (urlparse v).netloc = false) :
    unwrap_duckduckgo_redirect v = v := by
  have hpre : "//duckduckgo.com/l/?".toList.isPrefixOf v = false := by
    rw [Bool.eq_false_iff]
    intro hp
    obtain ⟨t, rfl⟩ := isPrefixOf_exists _ _ hp
    rw [netloc_of_ddg_wrapper] at h
    exact absurd h (by decide)
  have hif : (if "//duckduckgo.com/l/?".toList.isPrefixOf v = true
      then "https:".toList ++ v else v) = v := by
    rw [hpre]
    simp
  unfold unwrap_duckduckgo_redirect
  simp only []
  rw [hif]
  rw [if_neg (fun hand => Bool.eq_false_iff.mp h hand.1)]

theorem canonical_fixed (s n pa f : List Char)
    (hsInv : s = [] ∨ ((s.headD ' ').isAlpha = true ∧ s.all schemeChar = true ∧
      s.map Char.toLower = s))
    (hn : n.all netlocChar = true)
    (hn0 : n ≠ [])
    (hpa : ∀ c ∈ pa, c ≠ '?' ∧ c ≠ '#')
    (hcontains : containsSub "duckduckgo.com".toList n = true) :
    unwrap_duckduckgo_redirect (urlunparse ⟨s, n, pa, [], f⟩) =
        urlunparse ⟨s, n, pa, [], f⟩ ∧
      strip_duckduckgo_tracking (urlunparse ⟨s, n, pa, [], f⟩) =
        urlunparse ⟨s, n, pa, [], f⟩ := by
  have hsAll : ∀ c ∈ s, schemeChar c = true := by
    rcases hsInv with rfl | ⟨_, hsc, _⟩
    · intro c hc
      exact absurd hc (List.not_mem_nil c)
    · exact List.all_eq_true.mp hsc
  have hpre := ddg_prefix_impossible s n pa f hsAll hn hn0 hpa
  have hrt := urlparse_roundtrip s n pa f hsInv hn hn0 hpa
  have hnet : (urlparse (urlunparse ⟨s, n, pa, [], f⟩)).netloc = n := by rw [hrt]
  have hquery : (urlparse (urlunparse ⟨s, n, pa, [], f⟩)).query = [] := by rw [hrt]
  constructor
  · have hif : (if "//duckduckgo.com/l/?".toList.isPrefixOf
        (urlunparse ⟨s, n, pa, [], f⟩) = true
        then "https:".toList ++ urlunparse ⟨s, n, pa, [], f⟩
        else urlunparse ⟨s, n, pa, [], f⟩) = urlunparse ⟨s, n, pa, [], f⟩ := by
      rw [hpre]
      simp
    unfold unwrap_duckduckgo_redirect
    simp only []
    rw [hif]
    by_cases hcond : containsSub "duckduckgo.com".toList
        (urlparse (urlunparse ⟨s, n, pa, [], f⟩)).netloc = true ∧
        "/l".toList.isPrefixOf (urlparse (urlunparse ⟨s, n, pa, [], f⟩)).path = true
    · rw [if_pos hcond]
      simp only [hquery, parse_qsl_nil, List.find?_nil]
    · rw [if_neg hcond]
  · have hc2 : (!(containsSub "duckduckgo.com".toList
        (urlparse (urlunparse ⟨s, n, pa, [], f⟩)).netloc)) = false := by
      rw [hnet, hcontains]
      rfl
    unfold strip_duckduckgo_tracking
    simp only []
    rw [if_neg (show ¬((!STRIP_DDG_TRACKING) = true) by decide)]
    rw [if_neg (Bool.eq_false_iff.mp hc2)]
    rw [hrt]
    exact urlunparse_norm s n pa f hn0

theorem strip_idem_aux {v : List Char}
    (h : containsSub "duckduckgo.com".toList (urlparse v).netloc = true) :
    unwrap_duckduckgo_redirect (strip_duckduckgo_tracking v) =
        strip_duckduckgo_tracking v ∧
      strip_duckduckgo_tracking (strip_duckduckgo_tracking v) =
        strip_duckduckgo_tracking v := by
  have hw := strip_eq_of_contains h
  have hn0 := containsSub_ddg_ne_nil h
  have h1 := canonical_fixed (urlparse v).scheme (urlparse v).netloc
    (urlparse v).path (urlparse v).fragment (urlparse_scheme_inv v)
    (urlparse_netloc_all v) hn0 (urlparse_path_inv v) h
  rw [hw]
  exact h1

/-- Claim C4: the redirect/tracking normalizer
`unwrap_generic_redirect` (the unwrap-then-strip composition) is
idempotent: for every URL `u`, applying it twice equals applying it
once. -/
theorem unwrap_generic_redirect_idempotent (u : List Char) :
    unwrap_generic_redirect (unwrap_generic_redirect u) =
      unwrap_generic_redirect u := by
  unfold unwrap_generic_redirect
  by_cases h : containsSub "duckduckgo.com".toList
      (urlparse (unwrap_duckduckgo_redirect u)).netloc = true
  · obtain ⟨h1, h2⟩ := strip_idem_aux h
    rw [h1]
    exact h2
  · have hf := Bool.eq_false_iff.mpr h
    rw [strip_eq_self_of_not_contains hf, unwrap_eq_self_of_not_contains hf,
      strip_eq_self_of_not_contains hf]

end TextBrowser
